import Mathlib

/-!
Verification of the maze subsystem (`maze_gen.py`, `maze.py`): a shallow
embedding of the maze generator, the text loader and the navigation
operations, together with theorems about the specified properties.
-/

set_option maxHeartbeats 1000000

namespace MazeProj

/-- Mirror of the `MazeProperties` dataclass: a size and the four cell
symbols (defaults `#`, space, `S`, `E`). -/
structure MazeProperties where
  size : Int
  wall_char : Char
  path_char : Char
  start_char : Char
  end_char : Char
deriving DecidableEq

/-- `MazeProperties` with the default symbols and a given size. -/
def dprops (size : Int) : MazeProperties :=
  ⟨size, '#', ' ', 'S', 'E'⟩

/-- `MazeGenerator.__init__` accepts a size iff `size in range(4, 101)`,
i.e. `4 ≤ size ≤ 100`; otherwise it raises `ValueError`. -/
def sizeAccepted (size : Int) : Bool :=
  decide (4 ≤ size ∧ size ≤ 100)

/-- A grid position `(x, y)`: `x` is the row index, `y` the column index,
matching `self.maze[x][y]` in the source. -/
abbrev Pos := Int × Int

/-- Python `size | 1` for integers: set the lowest bit, i.e. round an even
number up to the next odd one. -/
def orOne (k : Int) : Int :=
  if k % 2 = 0 then k + 1 else k

/-- The size normalization on line 79 of `maze_gen.py`:
`max(5, min(size | 1, 99))`. -/
def normalizeSize (k : Int) : Int :=
  max 5 (min (orOne k) 99)

/-- Pointwise update of a grid function (a single `self.maze[p] = c`
assignment). -/
def setCell (m : Pos → Char) (p : Pos) (c : Char) : Pos → Char :=
  fun q => if q = p then c else m q

/-- The direction offsets of `_get_neighbours`:
`[(-2, 0), (0, 2), (2, 0), (0, -2)]`. -/
def nbDirs : List Pos := [(-2, 0), (0, 2), (2, 0), (0, -2)]

/-- Whether `(x, y)` satisfies `0 <= x < n and 0 <= y < n`. -/
def inB (n : Int) (p : Pos) : Prop :=
  0 ≤ p.1 ∧ p.1 < n ∧ 0 ≤ p.2 ∧ p.2 < n

instance (n : Int) (p : Pos) : Decidable (inB n p) := by
  unfold inB; infer_instance

/-- `MazeGenerator._get_neighbours`: the in-bounds, unvisited cells two
steps away whose backing cell still holds the wall symbol, in the fixed
direction order of the source. -/
def get_neighbours (props : MazeProperties) (n : Int) (maze : Pos → Char)
    (visited : List Pos) (p : Pos) : List Pos :=
  nbDirs.filterMap (fun d =>
    let q : Pos := (p.1 + d.1, p.2 + d.2)
    if inB n q ∧ q ∉ visited ∧ maze q = props.wall_char then some q else none)

/-- The mutable state of the `while stack:` loop in `generate_maze`,
plus the ghost list `edges` recording each successful carve step as the
pair (current node, newly visited node). The head of `stack` is the top
(`stack[-1]`). -/
structure GenState where
  maze : Pos → Char
  stack : List Pos
  visited : List Pos
  rng : List Nat
  edges : List (Pos × Pos)

/-- The carved wall cell strictly between two nodes:
`((x + nx) // 2, (y + ny) // 2)` with Python floor division. -/
def mid2 (a b : Pos) : Pos :=
  (Int.fdiv (a.1 + b.1) 2, Int.fdiv (a.2 + b.2) 2)

/-- One iteration of the `while stack:` loop: mark the top cell as path,
compute its unvisited neighbours; if some exist, consume one rng value to
pick one, carve the wall between them and push it, otherwise pop. -/
def genStep (props : MazeProperties) (n : Int) (s : GenState) : GenState :=
  match s.stack with
  | [] => s
  | c :: rest =>
    let m1 := setCell s.maze c props.path_char
    let nbs := get_neighbours props n m1 s.visited c
    match nbs with
    | [] => { s with maze := m1, stack := rest }
    | _ :: _ =>
      let next := nbs.getD (s.rng.headD 0 % nbs.length) (0, 0)
      { maze := setCell m1 (mid2 c next) props.path_char
        stack := next :: s.stack
        visited := next :: s.visited
        rng := s.rng.tail
        edges := (c, next) :: s.edges }

/-- The loop, driven by fuel; it stops as soon as the stack is empty.
`genLoop_stack_empty` below shows the fuel `genFuel` always suffices. -/
def genLoop (props : MazeProperties) (n : Int) : Nat → GenState → GenState
  | 0, s => s
  | f + 1, s => if s.stack = [] then s else genLoop props n f (genStep props n s)

/-- Fuel that dominates the loop's step count (at most one iteration per
visited node plus one per pop). -/
def genFuel (n : Int) : Nat :=
  2 * n.toNat * n.toNat + 2

/-- The state just before the loop: all cells wall, the start symbol at
`(0, 1)`, the node `(1, 1)` pushed and visited. -/
def initState (props : MazeProperties) (rng : List Nat) : GenState :=
  { maze := setCell (fun _ => props.wall_char) (0, 1) props.start_char
    stack := [(1, 1)]
    visited := [(1, 1)]
    rng := rng
    edges := [] }

/-- The columns `range(size-2, 0, -1)`, i.e. `n-2, n-3, ..., 1`. -/
def exitCols (n : Int) : List Int :=
  (List.range (n.toNat - 2)).map (fun i => n - 2 - Int.ofNat i)

/-- The exit-placement scan after the loop: the first column from the
right in row `n-2` holding a path cell receives the end symbol directly
below it, on the bottom border row `n-1`. -/
def placeExit (props : MazeProperties) (n : Int) (maze : Pos → Char) : Pos → Char :=
  match (exitCols n).find? (fun x => maze (n - 2, x) == props.path_char) with
  | some x => setCell maze (n - 1, x) props.end_char
  | none => maze

/-- The result of `generate_maze`: the (normalized) dimension, the final
grid, the number of successful carve steps, and the properties object as
mutated by the normalization on line 79. -/
structure GenResult where
  size : Int
  maze : Pos → Char
  carves : Nat
  props : MazeProperties

/-- `MazeGenerator.generate_maze`: normalize the size, run the carving
loop from the initial state, then place the exit. -/
def generate_maze (props : MazeProperties) (rng : List Nat) : GenResult :=
  { size := normalizeSize props.size
    maze := placeExit props (normalizeSize props.size)
      ((genLoop props (normalizeSize props.size)
        (genFuel (normalizeSize props.size)) (initState props rng)).maze)
    carves := (genLoop props (normalizeSize props.size)
      (genFuel (normalizeSize props.size)) (initState props rng)).edges.length
    props := { props with size := normalizeSize props.size } }

/-- All grid positions of an `n × n` maze, row by row. -/
def gridCells (n : Int) : List Pos :=
  (List.range n.toNat).flatMap (fun i =>
    (List.range n.toNat).map (fun j => (((i : Nat) : Int), ((j : Nat) : Int))))

/-- The number of cells of the grid holding the character `c`. -/
def countCell (r : GenResult) (c : Char) : Nat :=
  (gridCells r.size).countP (fun p => r.maze p == c)

/-- Whether a position lies on the outer border of an `n × n` grid. -/
def onBorder (n : Int) (p : Pos) : Prop :=
  p.1 = 0 ∨ p.1 = n - 1 ∨ p.2 = 0 ∨ p.2 = n - 1

instance (n : Int) (p : Pos) : Decidable (onBorder n p) := by
  unfold onBorder; infer_instance

/-- One 4-directional move from `p` to `q` through a non-wall cell:
`q` is in bounds, not a wall under `w`, and at unit distance from `p`. -/
def StepAdj (n : Int) (maze : Pos → Char) (w : Char) (p q : Pos) : Prop :=
  inB n q ∧ maze q ≠ w ∧
    ((q.1 - p.1) * (q.1 - p.1) + (q.2 - p.2) * (q.2 - p.2) = 1)

/-- Reachability by 4-directional moves through non-wall cells. -/
def Reach (n : Int) (maze : Pos → Char) (w : Char) (p q : Pos) : Prop :=
  Relation.ReflTransGen (StepAdj n maze w) p q

/-- Carve nodes have two odd coordinates: the traversal starts at
`(1, 1)` and always moves two cells at a time. -/
def oddodd (p : Pos) : Prop :=
  p.1 % 2 = 1 ∧ p.2 % 2 = 1

instance (p : Pos) : Decidable (oddodd p) := by
  unfold oddodd; infer_instance

/-- Two positions two steps apart along one axis (the carve-node
adjacency). -/
def adj2 (a b : Pos) : Prop :=
  (b.1 = a.1 ∧ (b.2 = a.2 + 2 ∨ b.2 = a.2 - 2)) ∨
    (b.2 = a.2 ∧ (b.1 = a.1 + 2 ∨ b.1 = a.1 - 2))

instance (a b : Pos) : Decidable (adj2 a b) := by
  unfold adj2; infer_instance

/-- Reachability along recorded carve edges. -/
def EdgeReach (edges : List (Pos × Pos)) (a b : Pos) : Prop :=
  Relation.ReflTransGen (fun p q => (p, q) ∈ edges) a b

/-- The carved wall cells, one per recorded carve edge. -/
def mids (edges : List (Pos × Pos)) : List Pos :=
  edges.map (fun e => mid2 e.1 e.2)

/-- The invariant maintained by every iteration of the carving loop (for
the default symbols): bookkeeping of the visited node set, the stack, the
cell contents, the recorded carve edges and their midpoints, plus the
depth-first closure and connectivity facts. -/
structure GenInv (n : Int) (s : GenState) : Prop where
  vis_bounds : ∀ p ∈ s.visited, inB n p ∧ oddodd p
  vis_nodup : s.visited.Nodup
  vis_one : (1, 1) ∈ s.visited
  stack_sub : ∀ p ∈ s.stack, p ∈ s.visited
  stack_nodup : s.stack.Nodup
  start_cell : s.maze (0, 1) = 'S'
  maze_vals : ∀ p : Pos, p ≠ (0, 1) → s.maze p = '#' ∨ s.maze p = ' '
  outside_wall : ∀ p : Pos, ¬ inB n p → s.maze p = '#'
  path_src : ∀ p : Pos, s.maze p = ' ' → p ∈ s.visited ∨ p ∈ mids s.edges
  vis_marked : ∀ p ∈ s.visited, s.maze p = ' ' ∨ p ∈ s.stack.take 1
  mids_marked : ∀ q ∈ mids s.edges, s.maze q = ' '
  unvis_wall : ∀ p : Pos, inB n p → oddodd p → p ∉ s.visited → s.maze p = '#'
  edges_ok : ∀ e ∈ s.edges, e.1 ∈ s.visited ∧ e.2 ∈ s.visited ∧
    oddodd e.1 ∧ oddodd e.2 ∧ adj2 e.1 e.2
  mids_nodup : (mids s.edges).Nodup
  count_eq : s.visited.length = s.edges.length + 1
  closure : ∀ p ∈ s.visited, p ∉ s.stack →
    ∀ q : Pos, adj2 p q → inB n q → q ∈ s.visited
  reach_edges : ∀ p ∈ s.visited, EdgeReach s.edges (1, 1) p

/-- The termination measure of the carving loop: it strictly decreases
at every iteration (a push newly visits a node, a pop shortens the
stack). -/
def genMeasure (n : Int) (s : GenState) : Nat :=
  2 * (n.toNat * n.toNat - s.visited.length) + s.stack.length

/-! ### The text format and the game (`maze.py`)

A file is modelled as its list of lines, each line a `List Char` without
the trailing newline (`write_to_file` writes one row per line; `strip`
and `rstrip` drop that newline together with any surrounding whitespace,
so dropping it up front is equivalent). -/

/-- Python `str.isspace` characters relevant to `strip`/`split`. -/
def isPyWs (c : Char) : Bool :=
  c == ' ' || c == '\t' || c == '\n' || c == '\r' || c == '\x0b' || c == '\x0c'

/-- Python `str.rstrip()`: drop trailing whitespace. -/
def pyRStrip (l : List Char) : List Char :=
  (l.reverse.dropWhile isPyWs).reverse

/-- Python `str.strip()`: drop leading and trailing whitespace. -/
def pyStrip (l : List Char) : List Char :=
  pyRStrip (l.dropWhile isPyWs)

/-- Worker for `pyWords`: `acc` holds the current word reversed. -/
def pyWordsAux : List Char → List Char → List (List Char)
  | [], acc => if acc = [] then [] else [acc.reverse]
  | c :: cs, acc =>
    if isPyWs c then
      if acc = [] then pyWordsAux cs [] else acc.reverse :: pyWordsAux cs []
    else pyWordsAux cs (c :: acc)

/-- Python `str.split()` with no argument: the maximal whitespace-free
words of the line. -/
def pyWords (l : List Char) : List (List Char) :=
  pyWordsAux l []

/-- The numeric value of a digit string. -/
def digitsToNat (l : List Char) : Nat :=
  l.foldl (fun a c => 10 * a + (c.toNat - 48)) 0

/-- Python `int(token)` on a whitespace-free token: an optional sign
followed by at least one digit. -/
def parsePyInt (l : List Char) : Option Int :=
  match l with
  | [] => none
  | c :: rest =>
    if c = '-' then
      if rest ≠ [] ∧ rest.all Char.isDigit then some (-(digitsToNat rest : Int)) else none
    else if c = '+' then
      if rest ≠ [] ∧ rest.all Char.isDigit then some ((digitsToNat rest : Int)) else none
    else if (c :: rest).all Char.isDigit then some ((digitsToNat (c :: rest) : Int)) else none

/-- The header attempt `height, width = map(int, first_line.split())`:
succeeds iff the line splits into exactly two int-parseable tokens. -/
def parseTwoInts (l : List Char) : Option (Int × Int) :=
  match pyWords l with
  | [a, b] =>
    match parsePyInt a, parsePyInt b with
    | some x, some y => some (x, y)
    | _, _ => none
  | _ => none

/-- Mirror of the `Maze` dataclass of `maze.py` (all fields default 0). -/
structure Maze where
  layout : List (List Char)
  width : Int
  height : Int
  start_x : Int
  start_y : Int
  player_x : Int
  player_y : Int
deriving DecidableEq

/-- The `'S' in line / line.index('S')` scan of `load_maze_from_file`:
the raw column of the first start symbol in the last line holding one. -/
def findStart (ls : List (List Char)) : Option (Int × Int) :=
  match (ls.enum.filter (fun p => p.2.contains 'S')).getLast? with
  | some (y, line) => some ((line.findIdx (fun c => c == 'S') : Int), (y : Int))
  | none => none

/-- Install the found start as `start` and `player`; a missing start
symbol leaves the dataclass defaults untouched. -/
def applyStart (m : Maze) (layoutLines : List (List Char)) : Maze :=
  match findStart layoutLines with
  | some (sx, sy) =>
    { m with start_x := sx, start_y := sy, player_x := sx, player_y := sy }
  | none => m

/-- `MazeGame.load_maze_from_file` on the file's lines: an empty file
raises `ValueError` (modelled as `Except.error`); otherwise either the
stripped first line parses as a `height width` header and the remaining
lines form the layout, or all lines do, with the dimensions measured from
them. Each layout row is the stripped line. -/
def load_maze_from_file (lines : List (List Char)) : Except Unit Maze :=
  match lines with
  | [] => .error ()
  | first :: rest =>
    let f := pyStrip first
    match parseTwoInts f with
    | some (h, w) =>
      .ok (applyStart
        { layout := rest.map pyStrip, width := w, height := h,
          start_x := 0, start_y := 0, player_x := 0, player_y := 0 } rest)
    | none =>
      .ok (applyStart
        { layout := (f :: rest).map pyStrip,
          width := ((pyRStrip f).length : Int),
          height := ((f :: rest).length : Int),
          start_x := 0, start_y := 0, player_x := 0, player_y := 0 }
        (f :: rest))

/-- `write_to_file` emits one text line per maze row. -/
def write_to_file (maze : List (List Char)) : List (List Char) :=
  maze

/-- The two failure messages `move_player` can return; a successful move
and an unrecognized direction both return Python `None`. -/
inductive MoveMsg where
  | wall
  | oob
deriving DecidableEq

/-- `self.maze.layout[y][x]` with an out-of-range read collapsed into the
wall symbol; faithful only where the indices land inside the actual
layout. `cellAtIx` below keeps the IndexError of the raw read visible. -/
def cellAt (m : Maze) (y x : Int) : Char :=
  (m.layout.getD y.toNat []).getD x.toNat '#'

/-- `self.maze.layout[y][x]` for the guarded nonnegative indices of
`move_player`, with Python's IndexError kept visible: `none` when the
row index runs past the end of `layout` or the column index past the end
of the row, as happens when the stored dimensions overstate the layout. -/
def cellAtIx (m : Maze) (y x : Int) : Option Char :=
  match m.layout[y.toNat]? with
  | some row => row[x.toNat]?
  | none => none

/-- ASCII uppercasing, matching Python `str.upper` on ASCII input. -/
def pyUpper (s : String) : String :=
  String.mk (s.data.map Char.toUpper)

/-- The `W`/`S`/`A`/`D` branch of `move_player`: the `(dx, dy)` unit
vector, or `none` for the early `return` on any other token. -/
def dirDelta (d : String) : Option (Int × Int) :=
  if d = "W" then some (0, -1)
  else if d = "S" then some (0, 1)
  else if d = "A" then some (-1, 0)
  else if d = "D" then some (1, 0)
  else none

/-- `MazeGame.move_player`: returns the message (`none` on success and on
an unrecognized direction) and the updated game state. -/
def move_player (m : Maze) (direction : String) : Option MoveMsg × Maze :=
  match dirDelta (pyUpper direction) with
  | none => (none, m)
  | some (dx, dy) =>
    let nx := m.player_x + dx
    let ny := m.player_y + dy
    if 0 ≤ nx ∧ nx < m.width ∧ 0 ≤ ny ∧ ny < m.height then
      if cellAt m ny nx ≠ '#' then
        (none, { m with player_x := nx, player_y := ny })
      else (some .wall, m)
    else (some .oob, m)

/-- `MazeGame.move_player` with the layout read of line 128 kept
fallible: when the bounds guard against the stored `width` and `height`
passes but `layout[new_y][new_x]` does not exist, Python raises an
uncaught IndexError, modelled as `Except.error`; every other input
behaves as in `move_player`. -/
def move_player_ix (m : Maze) (direction : String) :
    Except Unit (Option MoveMsg × Maze) :=
  match dirDelta (pyUpper direction) with
  | none => .ok (none, m)
  | some (dx, dy) =>
    let nx := m.player_x + dx
    let ny := m.player_y + dy
    if 0 ≤ nx ∧ nx < m.width ∧ 0 ≤ ny ∧ ny < m.height then
      match cellAtIx m ny nx with
      | some c =>
        if c ≠ '#' then .ok (none, { m with player_x := nx, player_y := ny })
        else .ok (some .wall, m)
      | none => .error ()
    else .ok (some .oob, m)

/-- `MazeGame.check_win_condition`: whether the cell at the player's
position is the exit symbol. -/
def check_win_condition (m : Maze) : Bool :=
  cellAt m m.player_y m.player_x == 'E'

/-- A maze layout as a grid function, for stating reachability of a
parsed grid: row `p.1`, column `p.2`, out-of-range cells read as wall. -/
def layoutFn (rows : List (List Char)) : Pos → Char :=
  fun p => (rows.getD p.1.toNat []).getD p.2.toNat '#'

/-- Load a line list and report the immediate win check, `false` when
loading fails. -/
def loadAndCheckWin (lines : List (List Char)) : Bool :=
  match load_maze_from_file lines with
  | .ok m => check_win_condition m
  | .error _ => false

/-- The spec's normalization, for comparison with the code's: "rounding
size down to the nearest odd value and clamping to the range [5, 99]".
Modelled from the spec, not from the source. -/
def specNormalizeDown (k : Int) : Int :=
  max 5 (min (if k % 2 = 0 then k - 1 else k) 99)

/-- The 3 × 3 maze `### / #SX / ###` holding the unknown character `X`,
as loaded by `load_maze_from_file`. -/
def mazeWithX : Maze :=
  { layout := [['#','#','#'],['#','S','X'],['#','#','#']], width := 3,
    height := 3, start_x := 1, start_y := 1, player_x := 1, player_y := 1 }

/-- A 5 × 5 grid with one Start at (row 2, col 3), one Exit at
(row 2, col 4) on the border, and a path cell at (row 1, cols 0-3 and
row 2, col 0); row 1 and row 2 begin with the whitespace path symbol. -/
def c5lines : List (List Char) :=
  [['#','#','#','#','#'],
   [' ',' ',' ',' ','#'],
   [' ','#','#','S','E'],
   ['#','#','#','#','#'],
   ['#','#','#','#','#']]

/-- A valid 5 × 5 grid (one Start, one border Exit adjacent to a path,
the single path cell reachable from Start) whose row 2 begins with the
whitespace path symbol. -/
def c3grid : List (List Char) :=
  [['#','#','#','#','#'],
   ['E','#','#','#','#'],
   [' ','S','#','#','#'],
   ['#','#','#','#','#'],
   ['#','#','#','#','#']]

/-- The maze loaded from the start-less input `### / # # / ###`: all
start and player fields keep the dataclass default 0. -/
def c8maze : Maze :=
  { layout := [['#','#','#'],['#',' ','#'],['#','#','#']], width := 3,
    height := 3, start_x := 0, start_y := 0, player_x := 0, player_y := 0 }

/-- A valid 5 × 5 grid whose every row starts and ends with a wall. -/
def c3goodGrid : List (List Char) :=
  [['#','S','#','#','#'],
   ['#',' ','#','#','#'],
   ['#',' ','#','#','#'],
   ['#',' ',' ','#','#'],
   ['#','#','E','#','#']]

/-- The maze loaded from the file `9 9` / `#S`: the header path stores
height = width = 9 while the layout holds a single two-cell row; the
start scan puts the player at column 1 of row 0. -/
def maze99 : Maze :=
  { layout := [['#','S']], width := 9, height := 9, start_x := 1,
    start_y := 0, player_x := 1, player_y := 0 }

/-! ### Theorems -/

/-- C6: the claim asks that construction fail exactly for sizes outside
[5, 100], as the constructor's own error message ("Maze size must be in
range 5 and 100.") and the dataclass docstring promise, but the guard
`size not in range(4, 101)` also accepts `size = 4`: the code evaluated
at the failing input 4 accepts it, while 4 is outside [5, 100]. Sizes
3 and 101 are rejected as claimed. -/
theorem C6_size_four_accepted :
    sizeAccepted 4 = true ∧ ¬ (5 ≤ (4 : Int) ∧ (4 : Int) ≤ 100) ∧
      sizeAccepted 3 = false ∧ sizeAccepted 101 = false := by decide

/-- C7 counterexample: the claim says the generated dimension is `size`
rounded DOWN to the nearest odd value and clamped, but `size | 1` rounds
up: at `size = 10` the generator produces an 11 × 11 grid while the
claimed round-down normalization yields 9. -/
theorem C7_counterexample :
    (generate_maze (dprops 10) []).size = 11 ∧ specNormalizeDown 10 = 9 ∧
      (11 : Int) ≠ 9 := by
  refine ⟨rfl, by decide, by decide⟩

/-- C7 (amended): for every accepted size, the dimension of the generated
grid is `max(5, min(size | 1, 99))` — `size` rounded UP to the nearest
odd value, clamped to [5, 99] — an odd value in [5, 99], and it is
reported to the caller by overwriting `properties.size`. -/
theorem C7_normalized_size (size : Int) (rng : List Nat)
    (h : sizeAccepted size = true) :
    (generate_maze (dprops size) rng).size
        = max 5 (min (if size % 2 = 0 then size + 1 else size) 99) ∧
      (generate_maze (dprops size) rng).props.size
        = (generate_maze (dprops size) rng).size ∧
      5 ≤ (generate_maze (dprops size) rng).size ∧
      (generate_maze (dprops size) rng).size ≤ 99 ∧
      (generate_maze (dprops size) rng).size % 2 = 1 := by
  have hs : (generate_maze (dprops size) rng).size = normalizeSize size := rfl
  have hp : (generate_maze (dprops size) rng).props.size = normalizeSize size := rfl
  rw [hs, hp]
  unfold sizeAccepted at h
  simp only [decide_eq_true_eq] at h
  unfold normalizeSize orOne
  by_cases h2 : size % 2 = 0
  · rw [if_pos h2]; exact ⟨rfl, rfl, by omega, by omega, by omega⟩
  · rw [if_neg h2]; exact ⟨rfl, rfl, by omega, by omega, by omega⟩

/-- C7 witness: the amended statement instantiated at size 10. -/
theorem C7_normalized_size_witness :
    sizeAccepted 10 = true ∧
      ((generate_maze (dprops 10) []).size
          = max 5 (min (if (10 : Int) % 2 = 0 then 10 + 1 else 10) 99) ∧
        (generate_maze (dprops 10) []).props.size
          = (generate_maze (dprops 10) []).size ∧
        5 ≤ (generate_maze (dprops 10) []).size ∧
        (generate_maze (dprops 10) []).size ≤ 99 ∧
        (generate_maze (dprops 10) []).size % 2 = 1) :=
  ⟨by decide, C7_normalized_size 10 [] (by decide)⟩

/-- C10: a direction string whose uppercase form is not one of `W`, `A`,
`S`, `D` makes `move_player` return `None` — the very value a successful
move returns — and leaves the whole game state unchanged. -/
theorem C10_unknown_direction_none (m : Maze) (d : String)
    (h : pyUpper d ∉ (["W", "A", "S", "D"] : List String)) :
    move_player m d = (none, m) := by
  simp only [List.mem_cons, List.not_mem_nil, or_false, not_or] at h
  obtain ⟨h1, h2, h3, h4⟩ := h
  unfold move_player dirDelta
  rw [if_neg h1, if_neg h3, if_neg h2, if_neg h4]

/-- C10 witness: the direction `"x"` uppercases to `"X"`, which is not a
movement key; the move is a no-op returning `None`. -/
theorem C10_unknown_direction_none_witness :
    pyUpper "x" ∉ (["W", "A", "S", "D"] : List String) ∧
      move_player mazeWithX "x" = (none, mazeWithX) :=
  ⟨by decide, C10_unknown_direction_none mazeWithX "x" (by decide)⟩

/-- C4 counterexample: the claim promises that every in-bounds move from
a reachable state returns Blocked (wall) or Moved, never failing fatally.
Loading the file `9 9` / `#S` yields the reachable state `maze99`: the
header stores width = height = 9 while the layout has one two-cell row
and the player stands at (1, 0). Moving right, the candidate (2, 0)
passes the `0 <= new < width/height` guard, yet the read
`layout[0][2]` raises an uncaught IndexError (the fallible move errors:
its `toOption` is `none`), while the collapsed-read `move_player` would
have reported a wall — the claimed trichotomy fails at this state. -/
theorem C4_counterexample :
    (load_maze_from_file [['9',' ','9'],['#','S']]).toOption = some maze99 ∧
      (0 ≤ maze99.player_x + 1 ∧ maze99.player_x + 1 < maze99.width ∧
        0 ≤ maze99.player_y + 0 ∧ maze99.player_y + 0 < maze99.height) ∧
      (move_player_ix maze99 "D").toOption = none ∧
      move_player maze99 "D" = (some .wall, maze99) := by decide

/-- C4 (amended): for any game state and recognized direction, with the
IndexError of the layout read kept visible: a candidate outside the
stored `[0, width) × [0, height)` box reports out-of-bounds and changes
nothing; an in-bounds candidate whose cell exists in the layout reports
a blocked move on the wall symbol (position unchanged) and otherwise
moves the player to the candidate coordinate returning `None`; but an
in-bounds candidate lying beyond the actual layout — possible when an
inconsistent header overstates the dimensions — raises IndexError
instead of returning. -/
theorem C4_move_trichotomy_ix (m : Maze) (dir : String) (dx dy : Int)
    (hd : dirDelta (pyUpper dir) = some (dx, dy)) :
    (¬ (0 ≤ m.player_x + dx ∧ m.player_x + dx < m.width ∧
          0 ≤ m.player_y + dy ∧ m.player_y + dy < m.height) →
        move_player_ix m dir = .ok (some .oob, m)) ∧
      ((0 ≤ m.player_x + dx ∧ m.player_x + dx < m.width ∧
          0 ≤ m.player_y + dy ∧ m.player_y + dy < m.height) →
        cellAtIx m (m.player_y + dy) (m.player_x + dx) = some '#' →
        move_player_ix m dir = .ok (some .wall, m)) ∧
      ((0 ≤ m.player_x + dx ∧ m.player_x + dx < m.width ∧
          0 ≤ m.player_y + dy ∧ m.player_y + dy < m.height) →
        cellAtIx m (m.player_y + dy) (m.player_x + dx) ≠ none →
        cellAtIx m (m.player_y + dy) (m.player_x + dx) ≠ some '#' →
        move_player_ix m dir = .ok (none,
          { m with player_x := m.player_x + dx, player_y := m.player_y + dy })) ∧
      ((0 ≤ m.player_x + dx ∧ m.player_x + dx < m.width ∧
          0 ≤ m.player_y + dy ∧ m.player_y + dy < m.height) →
        cellAtIx m (m.player_y + dy) (m.player_x + dx) = none →
        move_player_ix m dir = .error ()) := by
  unfold move_player_ix
  rw [hd]
  refine ⟨fun hout => ?_, fun hin hwall => ?_, fun hin hnn hns => ?_,
    fun hin hnone => ?_⟩
  · dsimp only; rw [if_neg hout]
  · dsimp only; rw [if_pos hin, hwall]; dsimp only; rw [if_neg (by simp)]
  · dsimp only
    rw [if_pos hin]
    cases hco : cellAtIx m (m.player_y + dy) (m.player_x + dx) with
    | none => exact absurd hco hnn
    | some c =>
      dsimp only
      rw [if_pos (fun h0 => hns (by rw [hco, h0]))]
  · dsimp only; rw [if_pos hin, hnone]

/-- C4 (amended) witness: in the maze `### / #SX / ###`, the hypotheses
of the fallible trichotomy hold for direction `"W"` from the start cell
(whose upward neighbour exists in the layout and is a wall). -/
theorem C4_move_trichotomy_ix_witness :
    dirDelta (pyUpper "W") = some (0, -1) ∧
      ((¬ (0 ≤ mazeWithX.player_x + 0 ∧ mazeWithX.player_x + 0 < mazeWithX.width ∧
            0 ≤ mazeWithX.player_y + (-1) ∧ mazeWithX.player_y + (-1) < mazeWithX.height) →
          move_player_ix mazeWithX "W" = .ok (some .oob, mazeWithX)) ∧
        ((0 ≤ mazeWithX.player_x + 0 ∧ mazeWithX.player_x + 0 < mazeWithX.width ∧
            0 ≤ mazeWithX.player_y + (-1) ∧ mazeWithX.player_y + (-1) < mazeWithX.height) →
          cellAtIx mazeWithX (mazeWithX.player_y + (-1)) (mazeWithX.player_x + 0) = some '#' →
          move_player_ix mazeWithX "W" = .ok (some .wall, mazeWithX)) ∧
        ((0 ≤ mazeWithX.player_x + 0 ∧ mazeWithX.player_x + 0 < mazeWithX.width ∧
            0 ≤ mazeWithX.player_y + (-1) ∧ mazeWithX.player_y + (-1) < mazeWithX.height) →
          cellAtIx mazeWithX (mazeWithX.player_y + (-1)) (mazeWithX.player_x + 0) ≠ none →
          cellAtIx mazeWithX (mazeWithX.player_y + (-1)) (mazeWithX.player_x + 0) ≠ some '#' →
          move_player_ix mazeWithX "W" = .ok (none,
            { mazeWithX with player_x := mazeWithX.player_x + 0, player_y := mazeWithX.player_y + (-1) })) ∧
        ((0 ≤ mazeWithX.player_x + 0 ∧ mazeWithX.player_x + 0 < mazeWithX.width ∧
            0 ≤ mazeWithX.player_y + (-1) ∧ mazeWithX.player_y + (-1) < mazeWithX.height) →
          cellAtIx mazeWithX (mazeWithX.player_y + (-1)) (mazeWithX.player_x + 0) = none →
          move_player_ix mazeWithX "W" = .error ())) :=
  ⟨by decide, C4_move_trichotomy_ix mazeWithX "W" 0 (-1) (by decide)⟩

/-- C9 counterexample: the claim says a cell holding a character that
matches no configured symbol (here `X`) is classified as Wall, so moving
onto it returns Blocked and leaves the player in place; in fact
`move_player` only tests `!= '#'`, so the move onto `X` succeeds and the
player position changes. -/
theorem C9_counterexample :
    (load_maze_from_file [['#','#','#'],['#','S','X'],['#','#','#']]).toOption
        = some mazeWithX ∧
      ¬ ((move_player mazeWithX "D").1 = some .wall ∧
        (move_player mazeWithX "D").2 = mazeWithX) := by decide

/-- C9 (amended): any in-bounds target cell whose character is not the
wall symbol `#` — unknown characters included — is walkable: the move
succeeds, returns `None` and sets the player to the candidate
coordinate. -/
theorem C9_unknown_char_walkable (m : Maze) (dir : String) (dx dy : Int)
    (hd : dirDelta (pyUpper dir) = some (dx, dy))
    (hin : 0 ≤ m.player_x + dx ∧ m.player_x + dx < m.width ∧
      0 ≤ m.player_y + dy ∧ m.player_y + dy < m.height)
    (hc : cellAt m (m.player_y + dy) (m.player_x + dx) ≠ '#') :
    move_player m dir = (none,
      { m with player_x := m.player_x + dx, player_y := m.player_y + dy }) := by
  unfold move_player
  rw [hd]
  dsimp only
  rw [if_pos hin, if_pos hc]

/-- C9 witness: in `mazeWithX`, moving right onto the `X` cell succeeds. -/
theorem C9_unknown_char_walkable_witness :
    dirDelta (pyUpper "D") = some (1, 0) ∧
      cellAt mazeWithX (mazeWithX.player_y + 0) (mazeWithX.player_x + 1) ≠ '#' ∧
      move_player mazeWithX "D" = (none,
        { mazeWithX with player_x := mazeWithX.player_x + 1, player_y := mazeWithX.player_y + 0 }) :=
  ⟨by decide, by decide,
    C9_unknown_char_walkable mazeWithX "D" 1 0 (by decide) (by decide) (by decide)⟩

/-- Characters of a right-stripped line come from the line. -/
theorem mem_of_mem_pyRStrip {l : List Char} {c : Char} (h : c ∈ pyRStrip l) :
    c ∈ l := by
  unfold pyRStrip at h
  rw [List.mem_reverse] at h
  exact List.mem_reverse.mp (List.Sublist.mem h (List.dropWhile_sublist _))

/-- Characters of a stripped line come from the line. -/
theorem mem_of_mem_pyStrip {l : List Char} {c : Char} (h : c ∈ pyStrip l) :
    c ∈ l := by
  unfold pyStrip at h
  exact List.Sublist.mem (mem_of_mem_pyRStrip h) (List.dropWhile_sublist _)

/-- A non-whitespace character survives `rstrip`. -/
theorem mem_pyRStrip_of_mem {l : List Char} {c : Char} (hc : c ∈ l)
    (hw : isPyWs c = false) : c ∈ pyRStrip l := by
  unfold pyRStrip
  rw [List.mem_reverse]
  have hc2 : c ∈ l.reverse := List.mem_reverse.mpr hc
  have hsplit := List.takeWhile_append_dropWhile isPyWs l.reverse
  rcases (List.mem_append.mp (by rw [hsplit]; exact hc2)) with h1 | h1
  · exact absurd (List.mem_takeWhile_imp h1) (by simp [hw])
  · exact h1

/-- A non-whitespace character survives `strip`. -/
theorem mem_pyStrip_of_mem {l : List Char} {c : Char} (hc : c ∈ l)
    (hw : isPyWs c = false) : c ∈ pyStrip l := by
  unfold pyStrip
  refine mem_pyRStrip_of_mem ?_ hw
  have hsplit := List.takeWhile_append_dropWhile isPyWs l
  rcases (List.mem_append.mp (by rw [hsplit]; exact hc)) with h1 | h1
  · exact absurd (List.mem_takeWhile_imp h1) (by simp [hw])
  · exact h1

/-- A line with no leading whitespace is untouched by the leading
`dropWhile`. -/
theorem dropWhile_eq_self_of_head {l : List Char}
    (h : ∀ c ∈ l.take 1, isPyWs c = false) : l.dropWhile isPyWs = l := by
  cases l with
  | nil => rfl
  | cons a t =>
    rw [List.dropWhile_cons, if_neg]
    simp only [List.take_succ_cons, List.take_zero, List.mem_singleton] at h
    simp [h a rfl]

/-- A line with no trailing whitespace is untouched by `rstrip`. -/
theorem pyRStrip_eq_self_of_getLast {l : List Char}
    (h : ∀ c ∈ l.reverse.take 1, isPyWs c = false) : pyRStrip l = l := by
  unfold pyRStrip
  rw [dropWhile_eq_self_of_head h, List.reverse_reverse]

/-- A line with no leading and no trailing whitespace is untouched by
`strip`. -/
theorem pyStrip_eq_self {l : List Char}
    (h1 : ∀ c ∈ l.take 1, isPyWs c = false)
    (h2 : ∀ c ∈ l.reverse.take 1, isPyWs c = false) : pyStrip l = l := by
  unfold pyStrip
  rw [dropWhile_eq_self_of_head h1, pyRStrip_eq_self_of_getLast h2]

/-- The line decomposes as its right-stripped part followed by a
whitespace tail. -/
theorem pyRStrip_decomp (l : List Char) :
    ∃ t, l = pyRStrip l ++ t ∧ ∀ c ∈ t, isPyWs c = true := by
  refine ⟨(l.reverse.takeWhile isPyWs).reverse, ?_, ?_⟩
  · conv_lhs => rw [← l.reverse_reverse, ← List.takeWhile_append_dropWhile isPyWs l.reverse]
    rw [List.reverse_append]
    rfl
  · intro c hc
    exact List.mem_takeWhile_imp (List.mem_reverse.mp hc)

/-- Reading a right-stripped line inside its own length agrees with the
original line. -/
theorem pyRStrip_getD {l : List Char} {i : Nat} (h : i < (pyRStrip l).length)
    (d : Char) : l.getD i d = (pyRStrip l).getD i d := by
  obtain ⟨t, hdec, -⟩ := pyRStrip_decomp l
  conv_lhs => rw [hdec]
  exact List.getD_append _ _ _ _ h

/-- If `acc` is nonempty, the first word emitted by `pyWordsAux` starts
with the reversed accumulator. -/
theorem pyWordsAux_first (cs : List Char) :
    ∀ acc : List Char, acc ≠ [] →
      ∃ w rest, pyWordsAux cs acc = (acc.reverse ++ w) :: rest := by
  induction cs with
  | nil =>
    intro acc hacc
    refine ⟨[], [], ?_⟩
    unfold pyWordsAux
    rw [if_neg hacc]
    simp
  | cons c cs ih =>
    intro acc hacc
    unfold pyWordsAux
    by_cases hw : isPyWs c
    · rw [if_pos hw, if_neg hacc]
      exact ⟨[], pyWordsAux cs [], by simp⟩
    · rw [if_neg hw]
      obtain ⟨w, rest, hrec⟩ := ih (c :: acc) (by simp)
      refine ⟨c :: w, rest, ?_⟩
      rw [hrec]
      simp

/-- Every non-whitespace character of the line lands in one of its
words. -/
theorem pyWordsAux_covers (cs : List Char) :
    ∀ acc c, (c ∈ cs ∨ c ∈ acc) → isPyWs c = false →
      ∃ t ∈ pyWordsAux cs acc, c ∈ t := by
  induction cs with
  | nil =>
    intro acc c hmem hnw
    rcases hmem with h | h
    · cases h
    · have hacc : acc ≠ [] := by rintro rfl; cases h
      refine ⟨acc.reverse, ?_, List.mem_reverse.mpr h⟩
      unfold pyWordsAux
      rw [if_neg hacc]
      exact List.mem_singleton.mpr rfl
  | cons d cs ih =>
    intro acc c hmem hnw
    unfold pyWordsAux
    by_cases hw : isPyWs d
    · have hcd : c ≠ d := by rintro rfl; rw [hnw] at hw; cases hw
      have hmem2 : c ∈ cs ∨ c ∈ acc := by
        rcases hmem with h | h
        · rcases List.mem_cons.mp h with h | h
          · exact absurd h hcd
          · exact Or.inl h
        · exact Or.inr h
      rw [if_pos hw]
      by_cases hacc : acc = []
      · subst hacc
        rw [if_pos rfl]
        have hmem3 : c ∈ cs ∨ c ∈ ([] : List Char) := by
          rcases hmem2 with h | h
          · exact Or.inl h
          · cases h
        exact ih [] c hmem3 hnw
      · rw [if_neg hacc]
        rcases hmem2 with h | h
        · obtain ⟨t, ht, hct⟩ := ih [] c (Or.inl h) hnw
          exact ⟨t, List.mem_cons_of_mem _ ht, hct⟩
        · exact ⟨acc.reverse, List.mem_cons_self _ _, List.mem_reverse.mpr h⟩
    · rw [if_neg hw]
      have hmem2 : c ∈ cs ∨ c ∈ d :: acc := by
        rcases hmem with h | h
        · rcases List.mem_cons.mp h with h | h
          · exact Or.inr (h ▸ List.mem_cons_self _ _)
          · exact Or.inl h
        · exact Or.inr (List.mem_cons_of_mem _ h)
      exact ih (d :: acc) c hmem2 hnw

/-- `parsePyInt` rejects any token that does not start with a digit or a
sign. -/
theorem parsePyInt_eq_none {c : Char} (w : List Char) (h1 : c ≠ '-')
    (h2 : c ≠ '+') (h3 : c.isDigit = false) : parsePyInt (c :: w) = none := by
  unfold parsePyInt
  dsimp only
  rw [if_neg h1, if_neg h2, if_neg]
  simp [h3]

/-- Every character of a token accepted by `parsePyInt` is a digit or a
sign. -/
theorem parsePyInt_chars {t : List Char} {v : Int} (h : parsePyInt t = some v) :
    ∀ c ∈ t, c.isDigit = true ∨ c = '-' ∨ c = '+' := by
  intro c hc
  unfold parsePyInt at h
  match t, hc with
  | d :: rest, hc =>
    dsimp only at h
    by_cases hd : d = '-'
    · rw [if_pos hd] at h
      split at h
      · next hcond =>
        rcases List.mem_cons.mp hc with rfl | hcr
        · exact Or.inr (Or.inl hd)
        · exact Or.inl (by simpa using (List.all_eq_true.mp (by simpa using hcond.2)) c hcr)
      · cases h
    · rw [if_neg hd] at h
      by_cases hp : d = '+'
      · rw [if_pos hp] at h
        split at h
        · next hcond =>
          rcases List.mem_cons.mp hc with rfl | hcr
          · exact Or.inr (Or.inr hp)
          · exact Or.inl (by simpa using (List.all_eq_true.mp (by simpa using hcond.2)) c hcr)
        · cases h
      · rw [if_neg hp] at h
        split at h
        · next hcond =>
          exact Or.inl (by simpa using (List.all_eq_true.mp hcond) c hc)
        · cases h

/-- A header line accepted by the `map(int, first_line.split())` attempt
contains only digits, signs and whitespace — in particular no `S`. -/
theorem parseTwoInts_no_start {l : List Char} {hw : Int × Int}
    (h : parseTwoInts l = some hw) : 'S' ∉ l := by
  intro hS
  obtain ⟨t, ht, hSt⟩ := pyWordsAux_covers l [] 'S' (Or.inl hS) (by decide)
  unfold parseTwoInts at h
  split at h
  · next a b hab =>
    have ht2 : t ∈ pyWords l := ht
    rw [hab] at ht2
    split at h
    · next x y hx hy =>
      rcases List.mem_cons.mp ht2 with rfl | ht2b
      · rcases parsePyInt_chars hx 'S' hSt with hdig | hsign | hsign
        · cases hdig
        · cases hsign
        · cases hsign
      · rcases List.mem_cons.mp ht2b with rfl | ht3
        · rcases parsePyInt_chars hy 'S' hSt with hdig | hsign | hsign
          · cases hdig
          · cases hsign
          · cases hsign
        · cases ht3
    · cases h
  · cases h

/-- If no searched line holds the start symbol, the start scan finds
nothing. -/
theorem findStart_eq_none {ls : List (List Char)} (h : ∀ l ∈ ls, 'S' ∉ l) :
    findStart ls = none := by
  unfold findStart
  have hf : (ls.enum.filter fun p => p.2.contains 'S') = [] := by
    rw [List.filter_eq_nil_iff]
    rintro ⟨i, a⟩ hp
    have hmem : a ∈ ls := by
      have := List.mk_mem_enum_iff_getElem?.mp hp
      exact List.getElem?_mem this
    simpa using fun hc => h a hmem (by simpa using hc)
  rw [hf]
  rfl

/-- C8 counterexample: the claim says parsing an input with no Start
symbol fails with `FormatError`; in fact loading `### / # # / ###`
succeeds and returns a maze whose start and player positions are the
dataclass defaults `(0, 0)`. -/
theorem C8_counterexample :
    (load_maze_from_file [['#','#','#'],['#',' ','#'],['#','#','#']]).toOption
      = some c8maze := by decide

/-- C8 (amended): for every non-empty input whose lines contain no Start
symbol, loading does not fail: it returns a maze whose start and player
coordinates keep the dataclass defaults `(0, 0)`. -/
theorem C8_no_start_keeps_defaults (lines : List (List Char))
    (h1 : lines ≠ []) (h2 : ∀ l ∈ lines, 'S' ∉ l) :
    ∃ m, load_maze_from_file lines = .ok m ∧ m.start_x = 0 ∧ m.start_y = 0 ∧
      m.player_x = 0 ∧ m.player_y = 0 := by
  match lines, h1 with
  | first :: rest, _ =>
    have hrest : ∀ l ∈ rest, 'S' ∉ l := fun l hl => h2 l (List.mem_cons_of_mem _ hl)
    have hfirst : 'S' ∉ pyStrip first := fun hc =>
      h2 first (List.mem_cons_self _ _) (mem_of_mem_pyStrip hc)
    unfold load_maze_from_file
    dsimp only
    cases hp : parseTwoInts (pyStrip first) with
    | some hw =>
      obtain ⟨hh, ww⟩ := hw
      dsimp only
      refine ⟨_, rfl, ?_, ?_, ?_, ?_⟩ <;>
        · unfold applyStart
          rw [findStart_eq_none hrest]
    | none =>
      dsimp only
      have hcombined : ∀ l ∈ pyStrip first :: rest, 'S' ∉ l := by
        intro l hl
        rcases List.mem_cons.mp hl with rfl | hl2
        · exact hfirst
        · exact hrest l hl2
      refine ⟨_, rfl, ?_, ?_, ?_, ?_⟩ <;>
        · unfold applyStart
          rw [findStart_eq_none hcombined]

/-- C8 witness: the amended statement instantiated at the wall-only
input. -/
theorem C8_no_start_keeps_defaults_witness :
    ([['#','#','#'],['#',' ','#'],['#','#','#']] : List (List Char)) ≠ [] ∧
      ∃ m, load_maze_from_file [['#','#','#'],['#',' ','#'],['#','#','#']] = .ok m ∧
        m.start_x = 0 ∧ m.start_y = 0 ∧ m.player_x = 0 ∧ m.player_y = 0 :=
  ⟨by decide, C8_no_start_keeps_defaults _ (by decide) (by decide)⟩

/-- The first character surviving a leading `dropWhile` fails the
predicate. -/
theorem dropWhile_take1 (p : Char → Bool) (l : List Char) :
    ∀ c ∈ (l.dropWhile p).take 1, p c = false := by
  induction l with
  | nil => intro c hc; cases hc
  | cons a t ih =>
    intro c hc
    rw [List.dropWhile_cons] at hc
    by_cases hpa : p a
    · rw [if_pos hpa] at hc
      exact ih c hc
    · rw [if_neg hpa] at hc
      simp only [List.take_succ_cons, List.take_zero, List.mem_singleton] at hc
      subst hc
      simpa using hpa

/-- A stripped line never begins with whitespace. -/
theorem pyStrip_no_lead (l : List Char) :
    ∀ c ∈ (pyStrip l).take 1, isPyWs c = false := by
  intro c hc
  have hx := dropWhile_take1 isPyWs l
  unfold pyStrip at hc
  obtain ⟨t, hdec, -⟩ := pyRStrip_decomp (l.dropWhile isPyWs)
  cases hr : pyRStrip (l.dropWhile isPyWs) with
  | nil => rw [hr] at hc; cases hc
  | cons c0 cs =>
    rw [hr] at hc
    simp only [List.take_succ_cons, List.take_zero, List.mem_singleton] at hc
    subst hc
    apply hx
    rw [hdec, hr]
    simp

/-- The start scan, specified: when some searched line holds `S`, it
returns the raw index of the first `S` in the last such line. -/
theorem findStart_spec (searched : List (List Char))
    (hs : ∃ l ∈ searched, 'S' ∈ l) :
    ∃ (y : Nat) (line : List Char), searched[y]? = some line ∧ 'S' ∈ line ∧
      findStart searched
        = some (((line.findIdx (fun c => c == 'S') : Nat) : Int), ((y : Nat) : Int)) := by
  obtain ⟨l0, hl0, hS0⟩ := hs
  have hfilter : (searched.enum.filter fun p => p.2.contains 'S') ≠ [] := by
    intro hnil
    obtain ⟨i, hi⟩ := List.mem_iff_getElem?.mp hl0
    have henum : (i, l0) ∈ searched.enum := List.mk_mem_enum_iff_getElem?.mpr hi
    have hmem : (i, l0) ∈ searched.enum.filter fun p => p.2.contains 'S' :=
      List.mem_filter.mpr ⟨henum, by simpa using hS0⟩
    rw [hnil] at hmem
    cases hmem
  have hsome : ((searched.enum.filter fun p => p.2.contains 'S').getLast?).isSome :=
    List.getLast?_isSome.mpr hfilter
  cases hg : (searched.enum.filter fun p => p.2.contains 'S').getLast? with
  | none => rw [hg] at hsome; cases hsome
  | some q =>
    obtain ⟨y, line⟩ := q
    have hmem : (y, line) ∈ searched.enum.filter fun p => p.2.contains 'S' :=
      List.mem_of_mem_getLast? (Option.mem_def.mpr hg)
    have hparts := List.mem_filter.mp hmem
    refine ⟨y, line, List.mk_mem_enum_iff_getElem?.mp hparts.1,
      by simpa using hparts.2, ?_⟩
    unfold findStart
    rw [hg]

/-- In a line with no leading whitespace containing `S`, reading the
stripped line at the raw index of the first `S` still yields `S`. -/
theorem stripped_getD_start (line : List Char)
    (hlead : ∀ c ∈ line.take 1, isPyWs c = false) (hS : 'S' ∈ line) :
    (pyStrip line).getD (line.findIdx (fun c => c == 'S')) '#' = 'S' := by
  have hdrop : line.dropWhile isPyWs = line := dropWhile_eq_self_of_head hlead
  have hstrip : pyStrip line = pyRStrip line := by unfold pyStrip; rw [hdrop]
  have hlt : line.findIdx (fun c => c == 'S') < line.length :=
    List.findIdx_lt_length_of_exists ⟨'S', hS, by simp⟩
  have hgd : line.getD (line.findIdx (fun c => c == 'S')) '#' = 'S' := by
    rw [List.getD_eq_getElem _ _ hlt]
    have := @List.findIdx_getElem _ (fun c => c == 'S') line hlt
    simpa using this
  obtain ⟨t, hdec, htws⟩ := pyRStrip_decomp line
  have hsx_lt : line.findIdx (fun c => c == 'S') < (pyRStrip line).length := by
    by_contra hge
    push_neg at hge
    have hright := List.getD_append_right (pyRStrip line) t '#'
      (line.findIdx (fun c => c == 'S')) hge
    rw [← hdec, hgd] at hright
    rcases Nat.lt_or_ge (line.findIdx (fun c => c == 'S') - (pyRStrip line).length)
        t.length with hlt2 | hge2
    · have hSt : ('S' : Char) ∈ t := by
        rw [hright, List.getD_eq_getElem _ _ hlt2]
        exact List.getElem_mem hlt2
      have := htws 'S' hSt
      cases this
    · rw [List.getD_eq_default _ _ hge2] at hright
      cases hright
  rw [hstrip, ← pyRStrip_getD hsx_lt '#', hgd]

/-- After installing the found start, the player's cell in the stripped
layout holds `S`, provided no searched line starts with whitespace. -/
theorem applyStart_player_cell (base : Maze) (searched : List (List Char))
    (hlayout : base.layout = searched.map pyStrip)
    (hlead : ∀ l ∈ searched, ∀ c ∈ l.take 1, isPyWs c = false)
    (hs : ∃ l ∈ searched, 'S' ∈ l) :
    cellAt (applyStart base searched) (applyStart base searched).player_y
      (applyStart base searched).player_x = 'S' := by
  obtain ⟨y, line, hy, hSline, hfs⟩ := findStart_spec searched hs
  have hline_mem : line ∈ searched := List.getElem?_mem hy
  unfold applyStart
  rw [hfs]
  unfold cellAt
  dsimp only
  rw [Int.toNat_natCast, Int.toNat_natCast, hlayout]
  have hmap : (searched.map pyStrip).getD y [] = pyStrip line := by
    rw [List.getD_eq_getElem?_getD, List.getElem?_map, hy]
    rfl
  rw [hmap]
  exact stripped_getD_start line (hlead line hline_mem) hSline

/-- After a successful load of lines none of which begins with
whitespace, with a start symbol present, the player's cell holds `S`. -/
theorem load_player_on_start (lines : List (List Char)) (m : Maze)
    (hload : load_maze_from_file lines = .ok m)
    (hlead : ∀ l ∈ lines, ∀ c ∈ l.take 1, isPyWs c = false)
    (hs : ∃ l ∈ lines, 'S' ∈ l) :
    cellAt m m.player_y m.player_x = 'S' := by
  cases lines with
  | nil => cases hload
  | cons first rest =>
    have hlead_rest : ∀ l ∈ rest, ∀ c ∈ l.take 1, isPyWs c = false :=
      fun l hl => hlead l (List.mem_cons_of_mem _ hl)
    unfold load_maze_from_file at hload
    dsimp only at hload
    cases hp : parseTwoInts (pyStrip first) with
    | some hw =>
      obtain ⟨hh, ww⟩ := hw
      rw [hp] at hload
      dsimp only at hload
      have hsr : ∃ l ∈ rest, 'S' ∈ l := by
        obtain ⟨l, hl, hSl⟩ := hs
        rcases List.mem_cons.mp hl with rfl | hl2
        · exact absurd (mem_pyStrip_of_mem hSl (by decide)) (parseTwoInts_no_start hp)
        · exact ⟨l, hl2, hSl⟩
      have hm : m = applyStart
          { layout := rest.map pyStrip, width := ww, height := hh, start_x := 0,
            start_y := 0, player_x := 0, player_y := 0 } rest := by
        injection hload with h1
        exact h1.symm
      rw [hm]
      exact applyStart_player_cell _ rest rfl hlead_rest hsr
    | none =>
      rw [hp] at hload
      dsimp only at hload
      have hlead2 : ∀ l ∈ pyStrip first :: rest, ∀ c ∈ l.take 1, isPyWs c = false := by
        intro l hl
        rcases List.mem_cons.mp hl with rfl | hl2
        · exact pyStrip_no_lead first
        · exact hlead_rest l hl2
      have hs2 : ∃ l ∈ pyStrip first :: rest, 'S' ∈ l := by
        obtain ⟨l, hl, hSl⟩ := hs
        rcases List.mem_cons.mp hl with rfl | hl2
        · exact ⟨pyStrip l, List.mem_cons_self _ _, mem_pyStrip_of_mem hSl (by decide)⟩
        · exact ⟨l, List.mem_cons_of_mem _ hl2, hSl⟩
      have hm : m = applyStart
          { layout := (pyStrip first :: rest).map pyStrip,
            width := ((pyRStrip (pyStrip first)).length : Int),
            height := ((pyStrip first :: rest).length : Int), start_x := 0,
            start_y := 0, player_x := 0, player_y := 0 } (pyStrip first :: rest) := by
        injection hload with h1
        exact h1.symm
      rw [hm]
      exact applyStart_player_cell _ (pyStrip first :: rest) rfl hlead2 hs2

/-- C5 counterexample: the grid `c5lines` holds exactly one Start (at row
2, column 3) and one Exit (at row 2, column 4) — distinct cells — yet
immediately after constructing the game from it, the win check is already
true: row 2 begins with a whitespace path cell, `strip` shifts the row
left in the layout while the player index is computed on the raw line, so
the player lands on the Exit cell. -/
theorem C5_counterexample :
    (c5lines.flatMap id).count 'S' = 1 ∧ (c5lines.flatMap id).count 'E' = 1 ∧
      loadAndCheckWin c5lines = true := by decide

/-- C5 (amended): the win check is true exactly when the cell at the
player's coordinate is the Exit symbol; and immediately after
constructing the game from any grid none of whose rows begins with
whitespace and which holds a Start symbol, the win check is false (the
player then stands on the Start cell, and Start is not Exit). -/
theorem C5_isWon_iff_exit (lines : List (List Char)) (m : Maze)
    (hload : load_maze_from_file lines = .ok m)
    (hlead : ∀ l ∈ lines, ∀ c ∈ l.take 1, isPyWs c = false)
    (hs : ∃ l ∈ lines, 'S' ∈ l) :
    (∀ g : Maze,
      (check_win_condition g = true ↔ cellAt g g.player_y g.player_x = 'E')) ∧
      check_win_condition m = false := by
  constructor
  · intro g
    unfold check_win_condition
    exact beq_iff_eq
  · have hS := load_player_on_start lines m hload hlead hs
    unfold check_win_condition
    rw [hS]
    decide

/-- The maze loaded from `c3goodGrid`. -/
def c5goodMaze : Maze :=
  { layout := c3goodGrid, width := 5, height := 5, start_x := 1, start_y := 0,
    player_x := 1, player_y := 0 }

/-- C5 witness: the amended statement instantiated at the well-formed
grid `c3goodGrid`: the win check is false right after loading. -/
theorem C5_isWon_iff_exit_witness :
    load_maze_from_file c3goodGrid = .ok c5goodMaze ∧
      ((∀ g : Maze,
        (check_win_condition g = true ↔ cellAt g g.player_y g.player_x = 'E')) ∧
        check_win_condition c5goodMaze = false) :=
  ⟨rfl, C5_isWon_iff_exit c3goodGrid c5goodMaze rfl (by decide) (by decide)⟩

/-- Mapping a function that fixes every member over a list is the
identity. -/
theorem map_eq_self_of_fix {α : Type} (l : List α) (f : α → α)
    (h : ∀ x ∈ l, f x = x) : l.map f = l := by
  induction l with
  | nil => rfl
  | cons a t ih =>
    simp only [List.map_cons, h a (List.mem_cons_self _ _)]
    rw [ih (fun x hx => h x (List.mem_cons_of_mem _ hx))]

/-- `applyStart` only touches the start and player fields. -/
theorem applyStart_fields (base : Maze) (ls : List (List Char)) :
    (applyStart base ls).layout = base.layout ∧
      (applyStart base ls).width = base.width ∧
      (applyStart base ls).height = base.height := by
  unfold applyStart
  cases hf : findStart ls with
  | none => exact ⟨rfl, rfl, rfl⟩
  | some p =>
    obtain ⟨a, b⟩ := p
    exact ⟨rfl, rfl, rfl⟩

/-- A line starting with a character that is not a digit, a sign or
whitespace cannot parse as a two-integer header. -/
theorem parseTwoInts_eq_none_of_head {c : Char} (w : List Char)
    (h1 : c ≠ '-') (h2 : c ≠ '+') (h3 : c.isDigit = false)
    (h4 : isPyWs c = false) : parseTwoInts (c :: w) = none := by
  have hstep : pyWordsAux (c :: w) [] = pyWordsAux w [c] := by
    conv_lhs => unfold pyWordsAux
    rw [if_neg (by simp [h4])]
  obtain ⟨w2, rest, hfw⟩ := pyWordsAux_first w [c] (by simp)
  unfold parseTwoInts pyWords
  rw [hstep, hfw]
  simp only [List.reverse_cons, List.reverse_nil, List.nil_append,
    List.singleton_append]
  cases rest with
  | nil => rfl
  | cons b rest2 =>
    cases rest2 with
    | nil =>
      dsimp only
      rw [parsePyInt_eq_none w2 h1 h2 h3]
    | cons d rest3 => rfl

/-- C3 counterexample: `c3grid` is a valid 5 × 5 grid — one Start, one
border Exit adjacent to its single path cell, that path cell reachable
from Start — yet parsing its serialized lines does not return an equal
grid: row 2 starts with the whitespace path symbol, which `strip`
removes, shifting the row. -/
theorem C3_counterexample :
    (c3grid.flatMap id).count 'S' = 1 ∧ (c3grid.flatMap id).count 'E' = 1 ∧
      c3grid.length = 5 ∧ (∀ r ∈ c3grid, r.length = 5) ∧
      onBorder 5 (1, 0) ∧ layoutFn c3grid (1, 0) = 'E' ∧
      Reach 5 (layoutFn c3grid) '#' (2, 1) (2, 0) ∧
      (load_maze_from_file (write_to_file c3grid)).toOption.map Maze.layout
        ≠ some c3grid := by
  refine ⟨by decide, by decide, by decide, by decide, by decide, by decide,
    ?_, by decide⟩
  exact Relation.ReflTransGen.single ⟨by decide, by decide, by decide⟩

/-- C3 (amended): for every non-empty rectangular grid over the four
default symbols none of whose rows starts or ends with the whitespace
path symbol — in particular every generated maze, whose border is solid
wall except for the start and exit markers — parsing the serialized
lines returns a maze equal to the original in layout and in both
dimensions. -/
theorem C3_roundtrip (g : List (List Char)) (w : Nat) (hne : g ≠ [])
    (hrows : ∀ r ∈ g, r ≠ []) (hlen : ∀ r ∈ g, r.length = w)
    (hchars : ∀ r ∈ g, ∀ c ∈ r, c = '#' ∨ c = ' ' ∨ c = 'S' ∨ c = 'E')
    (hlead : ∀ r ∈ g, ∀ c ∈ r.take 1, isPyWs c = false)
    (htrail : ∀ r ∈ g, ∀ c ∈ r.reverse.take 1, isPyWs c = false) :
    ∃ m, load_maze_from_file (write_to_file g) = .ok m ∧
      m.layout = g ∧ m.height = (g.length : Int) ∧ m.width = (w : Int) := by
  match g, hne with
  | first :: rest, _ =>
    have hstrip_all : ∀ r ∈ first :: rest, pyStrip r = r := fun r hr =>
      pyStrip_eq_self (hlead r hr) (htrail r hr)
    have hfs : pyStrip first = first := hstrip_all first (List.mem_cons_self _ _)
    have hmap : (first :: rest).map pyStrip = first :: rest :=
      map_eq_self_of_fix _ _ hstrip_all
    cases first with
    | nil => exact absurd rfl (hrows _ (List.mem_cons_self _ _))
    | cons c w' =>
      have hc4 := hchars _ (List.mem_cons_self _ _) c (List.mem_cons_self _ _)
      have hcns : isPyWs c = false :=
        hlead _ (List.mem_cons_self _ _) c (by simp)
      have hcd : c.isDigit = false := by
        rcases hc4 with rfl | rfl | rfl | rfl
        · decide
        · cases hcns
        · decide
        · decide
      have hd1 : c ≠ '-' := by
        rcases hc4 with rfl | rfl | rfl | rfl <;> decide
      have hd2 : c ≠ '+' := by
        rcases hc4 with rfl | rfl | rfl | rfl <;> decide
      have hparse : parseTwoInts (pyStrip (c :: w')) = none := by
        rw [hfs]
        exact parseTwoInts_eq_none_of_head w' hd1 hd2 hcd hcns
      unfold load_maze_from_file write_to_file
      dsimp only
      rw [hparse]
      dsimp only
      refine ⟨_, rfl, ?_, ?_, ?_⟩
      · rw [(applyStart_fields _ _).1]
        dsimp only
        rw [hfs, hmap]
      · rw [(applyStart_fields _ _).2.2]
        dsimp only
        rw [hfs]
      · rw [(applyStart_fields _ _).2.1]
        dsimp only
        rw [hfs]
        have hrsf : pyRStrip (c :: w') = c :: w' :=
          pyRStrip_eq_self_of_getLast (htrail _ (List.mem_cons_self _ _))
        rw [hrsf, hlen _ (List.mem_cons_self _ _)]

/-- C3 witness: the amended round-trip instantiated at the valid grid
`c3goodGrid`. -/
theorem C3_roundtrip_witness :
    (∀ r ∈ c3goodGrid, r.length = 5) ∧
      ∃ m, load_maze_from_file (write_to_file c3goodGrid) = .ok m ∧
        m.layout = c3goodGrid ∧ m.height = (c3goodGrid.length : Int) ∧
        m.width = ((5 : Nat) : Int) :=
  ⟨by decide, C3_roundtrip c3goodGrid 5 (by decide) (by decide) (by decide)
    (by decide) (by decide) (by decide)⟩

/-- C2 counterexample: the claim equates the number of Path cells with
the number of successful carve steps; at size 5 with the all-zeros rng
sequence the final grid holds 7 Path cells after 3 carve steps. -/
theorem C2_counterexample :
    countCell (generate_maze (dprops 5) []) ' ' = 7 ∧
      (generate_maze (dprops 5) []).carves = 3 ∧ (7 : Nat) ≠ 3 := by decide

/-! ### Generator invariants -/

theorem setCell_same (m : Pos → Char) (p : Pos) (c : Char) :
    setCell m p c p = c := by
  unfold setCell
  rw [if_pos rfl]

theorem setCell_other (m : Pos → Char) (p : Pos) (c : Char) {q : Pos}
    (h : q ≠ p) : setCell m p c q = m q := by
  unfold setCell
  rw [if_neg h]

/-- Writing the path symbol never erases a path symbol. -/
theorem setCell_path_keep (m : Pos → Char) (p : Pos) {q : Pos}
    (h : m q = ' ') : setCell m p ' ' q = ' ' := by
  unfold setCell
  by_cases hq : q = p
  · rw [if_pos hq]
  · rw [if_neg hq]
    exact h

theorem oddodd_ne01 {p : Pos} (h : oddodd p) : p ≠ (0, 1) := by
  rintro rfl
  exact absurd h.1 (by decide)

theorem adj2_of_dir {p q : Pos} (d : Pos) (hd : d ∈ nbDirs)
    (hq : q = (p.1 + d.1, p.2 + d.2)) : adj2 p q := by
  subst hq
  unfold nbDirs at hd
  simp only [List.mem_cons, List.not_mem_nil, or_false] at hd
  rcases hd with rfl | rfl | rfl | rfl <;> unfold adj2 <;> dsimp only <;>
    [right; left; right; left] <;> exact ⟨by omega, by omega⟩

theorem adj2_dir {p q : Pos} (h : adj2 p q) :
    ∃ d ∈ nbDirs, q = (p.1 + d.1, p.2 + d.2) := by
  unfold adj2 at h
  unfold nbDirs
  obtain ⟨p1, p2⟩ := p
  obtain ⟨q1, q2⟩ := q
  dsimp only at h
  rcases h with ⟨h1, h2 | h2⟩ | ⟨h1, h2 | h2⟩
  · exact ⟨(0, 2), by simp, by simp [Prod.ext_iff]; omega⟩
  · exact ⟨(0, -2), by simp, by simp [Prod.ext_iff]; omega⟩
  · exact ⟨(2, 0), by simp, by simp [Prod.ext_iff]; omega⟩
  · exact ⟨(-2, 0), by simp, by simp [Prod.ext_iff]; omega⟩

theorem oddodd_adj2 {p q : Pos} (hp : oddodd p) (h : adj2 p q) : oddodd q := by
  unfold oddodd at *
  unfold adj2 at h
  rcases h with ⟨h1, h2 | h2⟩ | ⟨h1, h2 | h2⟩ <;> exact ⟨by omega, by omega⟩

theorem fdiv_double (x : Int) : Int.fdiv (x + x) 2 = x := by
  rw [show x + x = 2 * x by ring]
  exact Int.mul_fdiv_cancel_left x (by norm_num)

theorem fdiv_double_up (x : Int) : Int.fdiv (x + (x + 2)) 2 = x + 1 := by
  rw [show x + (x + 2) = 2 * (x + 1) by ring]
  exact Int.mul_fdiv_cancel_left _ (by norm_num)

theorem fdiv_double_down (x : Int) : Int.fdiv (x + (x - 2)) 2 = x - 1 := by
  rw [show x + (x - 2) = 2 * (x - 1) by ring]
  exact Int.mul_fdiv_cancel_left _ (by norm_num)

/-- The four shapes of a carve adjacency, with the explicit midpoint of
each. -/
theorem adj2_cases {a b : Pos} (h : adj2 a b) :
    (b = (a.1, a.2 + 2) ∧ mid2 a b = (a.1, a.2 + 1)) ∨
      (b = (a.1, a.2 - 2) ∧ mid2 a b = (a.1, a.2 - 1)) ∨
      (b = (a.1 + 2, a.2) ∧ mid2 a b = (a.1 + 1, a.2)) ∨
      (b = (a.1 - 2, a.2) ∧ mid2 a b = (a.1 - 1, a.2)) := by
  obtain ⟨a1, a2⟩ := a
  obtain ⟨b1, b2⟩ := b
  unfold adj2 at h
  dsimp only at h
  unfold mid2
  dsimp only
  rcases h with ⟨h1, h2 | h2⟩ | ⟨h1, h2 | h2⟩
  · subst h1; subst h2
    exact Or.inl ⟨rfl, by rw [fdiv_double, fdiv_double_up]⟩
  · subst h1; subst h2
    exact Or.inr (Or.inl ⟨rfl, by rw [fdiv_double, fdiv_double_down]⟩)
  · subst h1; subst h2
    exact Or.inr (Or.inr (Or.inl ⟨rfl, by rw [fdiv_double, fdiv_double_up]⟩))
  · subst h1; subst h2
    exact Or.inr (Or.inr (Or.inr ⟨rfl, by rw [fdiv_double, fdiv_double_down]⟩))

/-- A carve midpoint has exactly one odd coordinate, so it is never a
carve node. -/
theorem mid2_not_oddodd {a b : Pos} (ha : oddodd a) (h : adj2 a b) :
    ¬ oddodd (mid2 a b) := by
  intro hm
  unfold oddodd at ha hm
  rcases adj2_cases h with ⟨-, hmid⟩ | ⟨-, hmid⟩ | ⟨-, hmid⟩ | ⟨-, hmid⟩ <;>
    rw [hmid] at hm <;> (try dsimp only at hm) <;> omega

/-- A carve midpoint of in-bounds nodes is in bounds. -/
theorem mid2_inB {n : Int} {a b : Pos} (ha : inB n a) (hb : inB n b)
    (h : adj2 a b) : inB n (mid2 a b) := by
  unfold inB at *
  rcases adj2_cases h with ⟨hb', hmid⟩ | ⟨hb', hmid⟩ | ⟨hb', hmid⟩ | ⟨hb', hmid⟩ <;>
    rw [hmid] <;> rw [hb'] at hb <;> (try dsimp only at *) <;>
    exact ⟨by omega, by omega, by omega, by omega⟩

/-- A carve midpoint is never the start cell `(0, 1)`. -/
theorem mid2_ne01 {n : Int} {a b : Pos} (ha : inB n a) (hb : inB n b)
    (hoa : oddodd a) (h : adj2 a b) : mid2 a b ≠ (0, 1) := by
  intro heq
  unfold inB at ha hb
  unfold oddodd at hoa
  rcases adj2_cases h with ⟨hb', hmid⟩ | ⟨hb', hmid⟩ | ⟨hb', hmid⟩ | ⟨hb', hmid⟩ <;>
    rw [heq] at hmid <;> rw [hb'] at hb <;>
    rw [Prod.ext_iff] at hmid <;> (try dsimp only at *) <;> omega

/-- A carve midpoint of nodes below row `n - 1` stays below row `n - 1`. -/
theorem mid2_row_lt {n : Int} {a b : Pos} (ha : inB n a) (hb : inB n b)
    (hoa : oddodd a) (hodd : n % 2 = 1) (h : adj2 a b) :
    (mid2 a b).1 ≠ n - 1 := by
  intro heq
  unfold inB at ha hb
  unfold oddodd at hoa
  rcases adj2_cases h with ⟨hb', hmid⟩ | ⟨hb', hmid⟩ | ⟨hb', hmid⟩ | ⟨hb', hmid⟩ <;>
    rw [hmid] at heq <;> rw [hb'] at hb <;> (try dsimp only at *) <;> omega

/-- The midpoint determines the carve edge up to orientation. -/
theorem mid2_inj {a b c d : Pos} (ha : oddodd a) (hc : oddodd c)
    (hab : adj2 a b) (hcd : adj2 c d) (heq : mid2 a b = mid2 c d) :
    (a = c ∧ b = d) ∨ (a = d ∧ b = c) := by
  obtain ⟨a1, a2⟩ := a
  obtain ⟨b1, b2⟩ := b
  obtain ⟨c1, c2⟩ := c
  obtain ⟨d1, d2⟩ := d
  unfold oddodd at ha hc
  dsimp only at ha hc
  rcases adj2_cases hab with ⟨hb', hm⟩ | ⟨hb', hm⟩ | ⟨hb', hm⟩ | ⟨hb', hm⟩ <;>
    rcases adj2_cases hcd with ⟨hd', hm2⟩ | ⟨hd', hm2⟩ | ⟨hd', hm2⟩ | ⟨hd', hm2⟩ <;>
    rw [hm, hm2] at heq <;>
    rw [Prod.ext_iff] at heq hb' hd' <;>
    simp only [Prod.ext_iff, Prod.mk.injEq] at * <;>
    omega

/-- Membership in the neighbour list of `_get_neighbours`. -/
theorem mem_get_neighbours {sz n : Int} {maze : Pos → Char}
    {visited : List Pos} {p q : Pos} :
    q ∈ get_neighbours (dprops sz) n maze visited p ↔
      (∃ d ∈ nbDirs, q = (p.1 + d.1, p.2 + d.2)) ∧ inB n q ∧ q ∉ visited ∧
        maze q = '#' := by
  unfold get_neighbours
  simp only [List.mem_filterMap]
  constructor
  · rintro ⟨d, hd, hq⟩
    try dsimp only at hq
    split at hq
    · next hcond =>
      cases hq
      exact ⟨⟨d, hd, rfl⟩, hcond.1, hcond.2.1, hcond.2.2⟩
    · cases hq
  · rintro ⟨⟨d, hd, rfl⟩, h1, h2, h3⟩
    refine ⟨d, hd, ?_⟩
    dsimp only
    rw [if_pos ⟨h1, h2, h3⟩]

/-- The pop shape of one loop iteration. -/
theorem genStep_pop {sz n : Int} {s : GenState} {c : Pos} {rest : List Pos}
    (hstack : s.stack = c :: rest)
    (hnbs : get_neighbours (dprops sz) n (setCell s.maze c ' ') s.visited c = []) :
    genStep (dprops sz) n s = { s with maze := setCell s.maze c ' ', stack := rest } := by
  unfold genStep
  rw [hstack]
  dsimp only
  have hpc : (dprops sz).path_char = ' ' := rfl
  rw [hpc, hnbs]

/-- The push shape of one loop iteration. -/
theorem genStep_push {sz n : Int} {s : GenState} {c : Pos} {rest : List Pos}
    {nbs : List Pos} (hstack : s.stack = c :: rest)
    (hnbs : get_neighbours (dprops sz) n (setCell s.maze c ' ') s.visited c = nbs)
    (hne : nbs ≠ []) :
    genStep (dprops sz) n s =
      { maze := setCell (setCell s.maze c ' ')
          (mid2 c (nbs.getD (s.rng.headD 0 % nbs.length) (0, 0))) ' '
        stack := nbs.getD (s.rng.headD 0 % nbs.length) (0, 0) :: s.stack
        visited := nbs.getD (s.rng.headD 0 % nbs.length) (0, 0) :: s.visited
        rng := s.rng.tail
        edges := (c, nbs.getD (s.rng.headD 0 % nbs.length) (0, 0)) :: s.edges } := by
  unfold genStep
  rw [hstack]
  dsimp only
  have hpc : (dprops sz).path_char = ' ' := rfl
  rw [hpc, hnbs]
  cases nbs with
  | nil => exact absurd rfl hne
  | cons q qs => rfl

/-- One loop iteration preserves the invariant. -/
theorem genInv_step {sz n : Int} {s : GenState} (hne : s.stack ≠ [])
    (hInv : GenInv n s) : GenInv n (genStep (dprops sz) n s) := by
  obtain ⟨c, rest, hstack⟩ : ∃ c rest, s.stack = c :: rest := by
    cases hs : s.stack with
    | nil => exact absurd hs hne
    | cons a b => exact ⟨a, b, rfl⟩
  have hc_stack : c ∈ s.stack := by rw [hstack]; exact List.mem_cons_self _ _
  have hc_vis : c ∈ s.visited := hInv.stack_sub c hc_stack
  have hc_inB : inB n c := (hInv.vis_bounds c hc_vis).1
  have hc_odd : oddodd c := (hInv.vis_bounds c hc_vis).2
  have hc_ne01 : c ≠ (0, 1) := oddodd_ne01 hc_odd
  have hm1_start : setCell s.maze c ' ' (0, 1) = 'S' := by
    rw [setCell_other _ _ _ (fun h : (0, 1) = c => hc_ne01 h.symm)]
    exact hInv.start_cell
  have hm1_c : setCell s.maze c ' ' c = ' ' := setCell_same _ _ _
  have hm1_other : ∀ p : Pos, p ≠ c → setCell s.maze c ' ' p = s.maze p :=
    fun p hp => setCell_other _ _ _ hp
  have hm1_keep : ∀ p : Pos, s.maze p = ' ' → setCell s.maze c ' ' p = ' ' :=
    fun p hp => setCell_path_keep _ _ hp
  have hm1_vals : ∀ p : Pos, p ≠ (0, 1) →
      setCell s.maze c ' ' p = '#' ∨ setCell s.maze c ' ' p = ' ' := by
    intro p hp
    by_cases hpc2 : p = c
    · right; rw [hpc2]; exact hm1_c
    · rw [hm1_other p hpc2]; exact hInv.maze_vals p hp
  cases hnbs : get_neighbours (dprops sz) n (setCell s.maze c ' ') s.visited c with
  | nil =>
    rw [genStep_pop hstack hnbs]
    have hrest_sub : ∀ p ∈ rest, p ∈ s.stack := fun p hp => by
      rw [hstack]; exact List.mem_cons_of_mem _ hp
    constructor <;> (try dsimp only)
    · exact hInv.vis_bounds
    · exact hInv.vis_nodup
    · exact hInv.vis_one
    · exact fun p hp => hInv.stack_sub p (hrest_sub p hp)
    · have h := hInv.stack_nodup
      rw [hstack] at h
      exact h.of_cons
    · exact hm1_start
    · exact hm1_vals
    · intro p hp
      have hpc2 : p ≠ c := fun h => hp (h ▸ hc_inB)
      rw [hm1_other p hpc2]
      exact hInv.outside_wall p hp
    · intro p hp
      by_cases hpc2 : p = c
      · exact Or.inl (hpc2 ▸ hc_vis)
      · rw [hm1_other p hpc2] at hp
        exact hInv.path_src p hp
    · intro p hp
      by_cases hpc2 : p = c
      · exact Or.inl (by rw [hpc2]; exact hm1_c)
      · rcases hInv.vis_marked p hp with h | h
        · exact Or.inl (hm1_keep p h)
        · rw [hstack] at h
          simp only [List.take_succ_cons, List.take_zero, List.mem_singleton] at h
          exact absurd h hpc2
    · exact fun q hq => hm1_keep q (hInv.mids_marked q hq)
    · intro p hpB hpo hpv
      have hpc2 : p ≠ c := fun h => hpv (h ▸ hc_vis)
      rw [hm1_other p hpc2]
      exact hInv.unvis_wall p hpB hpo hpv
    · exact hInv.edges_ok
    · exact hInv.mids_nodup
    · exact hInv.count_eq
    · intro p hp hprest q hadj hqB
      by_cases hpc2 : p = c
      · subst hpc2
        by_cases hqv : q ∈ s.visited
        · exact hqv
        · exfalso
          have hqodd : oddodd q := oddodd_adj2 hc_odd hadj
          have hqc : q ≠ p := by
            intro h
            subst h
            unfold adj2 at hadj
            rcases hadj with ⟨h1, h2 | h2⟩ | ⟨h1, h2 | h2⟩ <;> omega
          have hqm : setCell s.maze p ' ' q = '#' := by
            rw [hm1_other q hqc]
            exact hInv.unvis_wall q hqB hqodd hqv
          have hmem : q ∈ get_neighbours (dprops sz) n (setCell s.maze p ' ')
              s.visited p :=
            mem_get_neighbours.mpr ⟨adj2_dir hadj, hqB, hqv, hqm⟩
          rw [hnbs] at hmem
          cases hmem
      · have hpold : p ∉ s.stack := by
          rw [hstack]
          intro hmem
          rcases List.mem_cons.mp hmem with h | h
          · exact hpc2 h
          · exact hprest h
        exact hInv.closure p hp hpold q hadj hqB
    · exact hInv.reach_edges
  | cons q0 qs =>
    rw [@genStep_push sz n s c rest (q0 :: qs) hstack hnbs (by simp)]
    have hlen : 0 < (q0 :: qs).length := by simp
    have hidx : s.rng.headD 0 % (q0 :: qs).length < (q0 :: qs).length :=
      Nat.mod_lt _ hlen
    set next := (q0 :: qs).getD (s.rng.headD 0 % (q0 :: qs).length) (0, 0)
      with hnextdef
    have hnext_mem : next ∈ q0 :: qs := by
      rw [hnextdef, List.getD_eq_getElem _ _ hidx]
      exact List.getElem_mem hidx
    have hnext_props := mem_get_neighbours.mp (hnbs ▸ hnext_mem)
    obtain ⟨⟨d, hd, hnext_eq⟩, hnext_inB, hnext_unvis, hnext_wall⟩ := hnext_props
    have hnext_adj : adj2 c next := adj2_of_dir d hd hnext_eq
    have hnext_odd : oddodd next := oddodd_adj2 hc_odd hnext_adj
    set mid := mid2 c next with hmiddef
    have hmid_inB : inB n mid := mid2_inB hc_inB hnext_inB hnext_adj
    have hmid_not_odd : ¬ oddodd mid := mid2_not_oddodd hc_odd hnext_adj
    have hmid_ne01 : mid ≠ (0, 1) := mid2_ne01 hc_inB hnext_inB hc_odd hnext_adj
    have hm2_keep : ∀ p : Pos, setCell s.maze c ' ' p = ' ' →
        setCell (setCell s.maze c ' ') mid ' ' p = ' ' :=
      fun p hp => setCell_path_keep _ _ hp
    have hm2_mid : setCell (setCell s.maze c ' ') mid ' ' mid = ' ' :=
      setCell_same _ _ _
    have hm2_other : ∀ p : Pos, p ≠ mid →
        setCell (setCell s.maze c ' ') mid ' ' p = setCell s.maze c ' ' p :=
      fun p hp => setCell_other _ _ _ hp
    have hmids_cons :
        mids ((c, next) :: s.edges) = mid2 c next :: mids s.edges := rfl
    constructor <;> (try dsimp only)
    · intro p hp
      rcases List.mem_cons.mp hp with rfl | hp2
      · exact ⟨hnext_inB, hnext_odd⟩
      · exact hInv.vis_bounds p hp2
    · exact List.nodup_cons.mpr ⟨hnext_unvis, hInv.vis_nodup⟩
    · exact List.mem_cons_of_mem _ hInv.vis_one
    · intro p hp
      rcases List.mem_cons.mp hp with rfl | hp2
      · exact List.mem_cons_self _ _
      · exact List.mem_cons_of_mem _ (hInv.stack_sub p hp2)
    · exact List.nodup_cons.mpr
        ⟨fun h => hnext_unvis (hInv.stack_sub _ h), hInv.stack_nodup⟩
    · rw [hm2_other _ (fun h : (0, 1) = mid => hmid_ne01 h.symm)]
      exact hm1_start
    · intro p hp
      by_cases hpm : p = mid
      · exact Or.inr (by rw [hpm]; exact hm2_mid)
      · rw [hm2_other p hpm]
        exact hm1_vals p hp
    · intro p hp
      have hpm : p ≠ mid := fun h => hp (h ▸ hmid_inB)
      have hpc2 : p ≠ c := fun h => hp (h ▸ hc_inB)
      rw [hm2_other p hpm, hm1_other p hpc2]
      exact hInv.outside_wall p hp
    · intro p hp
      by_cases hpm : p = mid
      · refine Or.inr ?_
        rw [hmids_cons, hpm, hmiddef]
        exact List.mem_cons_self _ _
      · rw [hm2_other p hpm] at hp
        by_cases hpc2 : p = c
        · exact Or.inl (List.mem_cons_of_mem _ (hpc2 ▸ hc_vis))
        · rw [hm1_other p hpc2] at hp
          rcases hInv.path_src p hp with h | h
          · exact Or.inl (List.mem_cons_of_mem _ h)
          · refine Or.inr ?_
            rw [hmids_cons]
            exact List.mem_cons_of_mem _ h
    · intro p hp
      rcases List.mem_cons.mp hp with rfl | hp2
      · refine Or.inr ?_
        simp
      · refine Or.inl ?_
        rcases hInv.vis_marked p hp2 with h | h
        · exact hm2_keep p (hm1_keep p h)
        · rw [hstack] at h
          simp only [List.take_succ_cons, List.take_zero, List.mem_singleton] at h
          rw [h]
          exact hm2_keep _ hm1_c
    · intro q hq
      rw [hmids_cons] at hq
      rcases List.mem_cons.mp hq with rfl | hq2
      · exact hm2_mid
      · exact hm2_keep _ (hm1_keep _ (hInv.mids_marked q hq2))
    · intro p hpB hpo hpv
      have hpv2 : p ∉ s.visited := fun h => hpv (List.mem_cons_of_mem _ h)
      have hpm : p ≠ mid := fun h => (h ▸ hmid_not_odd) hpo
      have hpc2 : p ≠ c := fun h => hpv2 (h ▸ hc_vis)
      rw [hm2_other p hpm, hm1_other p hpc2]
      exact hInv.unvis_wall p hpB hpo hpv2
    · intro e he
      rcases List.mem_cons.mp he with rfl | he2
      · exact ⟨List.mem_cons_of_mem _ hc_vis, List.mem_cons_self _ _, hc_odd,
          hnext_odd, hnext_adj⟩
      · obtain ⟨h1, h2, h3, h4, h5⟩ := hInv.edges_ok e he2
        exact ⟨List.mem_cons_of_mem _ h1, List.mem_cons_of_mem _ h2, h3, h4, h5⟩
    · rw [hmids_cons]
      refine List.nodup_cons.mpr ⟨?_, hInv.mids_nodup⟩
      intro hmem
      unfold mids at hmem
      obtain ⟨e, he, heq⟩ := List.mem_map.mp hmem
      obtain ⟨h1, h2, h3, h4, h5⟩ := hInv.edges_ok e he
      rcases mid2_inj h3 hc_odd h5 hnext_adj heq with ⟨-, h22⟩ | ⟨h21, -⟩
      · exact hnext_unvis (h22 ▸ h2)
      · exact hnext_unvis (h21 ▸ h1)
    · show (next :: s.visited).length = ((c, next) :: s.edges).length + 1
      rw [List.length_cons, List.length_cons, hInv.count_eq]
    · intro p hp hpstack q hadj hqB
      have hpn : p ≠ next := fun h => hpstack (h ▸ List.mem_cons_self _ _)
      have hp2 : p ∈ s.visited := by
        rcases List.mem_cons.mp hp with h | h
        · exact absurd h hpn
        · exact h
      have hpold : p ∉ s.stack := fun h => hpstack (List.mem_cons_of_mem _ h)
      exact List.mem_cons_of_mem _ (hInv.closure p hp2 hpold q hadj hqB)
    · intro p hp
      have hmono : ∀ a b : Pos, (a, b) ∈ s.edges → (a, b) ∈ (c, next) :: s.edges :=
        fun a b h => List.mem_cons_of_mem _ h
      rcases List.mem_cons.mp hp with rfl | hp2
      · have hreach_c : EdgeReach ((c, next) :: s.edges) (1, 1) c :=
          Relation.ReflTransGen.mono (fun a b h => hmono a b h)
            (hInv.reach_edges c hc_vis)
        exact hreach_c.tail (List.mem_cons_self _ _)
      · exact Relation.ReflTransGen.mono (fun a b h => hmono a b h)
          (hInv.reach_edges p hp2)

/-- The state entering the loop satisfies the invariant. -/
theorem genInv_init {sz n : Int} (h5 : 5 ≤ n) (rng : List Nat) :
    GenInv n (initState (dprops sz) rng) := by
  have hin : inB n (1, 1) := by unfold inB; dsimp only; omega
  have hstart : setCell (fun _ => '#') (0, 1) 'S' (0, 1) = 'S' := setCell_same _ _ _
  have hother : ∀ p : Pos, p ≠ (0, 1) →
      setCell (fun _ => '#') (0, 1) 'S' p = '#' := fun p hp => setCell_other _ _ _ hp
  constructor <;> (try dsimp only [initState, dprops])
  · intro p hp
    simp only [List.mem_singleton] at hp
    subst hp
    exact ⟨hin, by decide⟩
  · simp
  · simp
  · intro p hp
    exact hp
  · simp
  · exact hstart
  · intro p hp
    exact Or.inl (hother p hp)
  · intro p hp
    have hp01 : p ≠ (0, 1) := fun h => hp (h ▸ (by unfold inB; dsimp only; omega))
    exact hother p hp01
  · intro p hp
    by_cases hp01 : p = (0, 1)
    · rw [hp01, hstart] at hp
      cases hp
    · rw [hother p hp01] at hp
      cases hp
  · intro p hp
    simp only [List.mem_singleton] at hp
    subst hp
    exact Or.inr (by simp)
  · intro q hq
    cases hq
  · intro p hpB hpo hpv
    exact hother p (oddodd_ne01 hpo)
  · intro e he
    cases he
  · simp [mids]
  · simp
  · intro p hp hpstack q hadj hqB
    simp only [List.mem_singleton] at hp
    subst hp
    exact absurd (List.mem_singleton.mpr rfl) hpstack
  · intro p hp
    simp only [List.mem_singleton] at hp
    subst hp
    exact Relation.ReflTransGen.refl

/-- A nodup list of in-bounds positions has at most `n²` elements. -/
theorem visited_card_le {n : Int} {s : GenState} (hInv : GenInv n s) :
    s.visited.length ≤ n.toNat * n.toNat := by
  classical
  have hsub : s.visited.toFinset ⊆
      (Finset.Icc (0 : Int) (n - 1)) ×ˢ (Finset.Icc (0 : Int) (n - 1)) := by
    intro p hp
    rw [List.mem_toFinset] at hp
    have hb := (hInv.vis_bounds p hp).1
    unfold inB at hb
    rw [Finset.mem_product, Finset.mem_Icc, Finset.mem_Icc]
    exact ⟨⟨hb.1, by omega⟩, hb.2.2.1, by omega⟩
  have hcard := Finset.card_le_card hsub
  rw [List.toFinset_card_of_nodup hInv.vis_nodup, Finset.card_product,
    Int.card_Icc] at hcard
  have : (n - 1 + 1 - 0).toNat = n.toNat := by omega
  rw [this] at hcard
  exact hcard

/-- Each loop iteration strictly decreases the measure. -/
theorem genMeasure_step {sz n : Int} {s : GenState} (hne : s.stack ≠ [])
    (hInv : GenInv n s) :
    genMeasure n (genStep (dprops sz) n s) < genMeasure n s := by
  have hcard2 := visited_card_le (@genInv_step sz n s hne hInv)
  obtain ⟨c, rest, hstack⟩ : ∃ c rest, s.stack = c :: rest := by
    cases hs : s.stack with
    | nil => exact absurd hs hne
    | cons a b => exact ⟨a, b, rfl⟩
  cases hnbs : get_neighbours (dprops sz) n (setCell s.maze c ' ') s.visited c with
  | nil =>
    rw [genStep_pop hstack hnbs]
    unfold genMeasure
    dsimp only
    rw [hstack]
    simp only [List.length_cons]
    omega
  | cons q0 qs =>
    rw [@genStep_push sz n s c rest (q0 :: qs) hstack hnbs (by simp)] at hcard2 ⊢
    unfold genMeasure
    dsimp only at hcard2 ⊢
    rw [hstack]
    simp only [List.length_cons] at hcard2 ⊢
    omega

/-- With enough fuel the loop reaches an empty stack while keeping the
invariant. -/
theorem genLoop_spec {sz n : Int} :
    ∀ (fuel : Nat) (s : GenState), GenInv n s → genMeasure n s ≤ fuel →
      GenInv n (genLoop (dprops sz) n fuel s) ∧
        (genLoop (dprops sz) n fuel s).stack = [] := by
  intro fuel
  induction fuel with
  | zero =>
    intro s hInv hm
    refine ⟨hInv, ?_⟩
    unfold genMeasure at hm
    have : s.stack.length = 0 := by omega
    exact List.length_eq_zero.mp this
  | succ f ih =>
    intro s hInv hm
    unfold genLoop
    by_cases hs : s.stack = []
    · rw [if_pos hs]
      exact ⟨hInv, hs⟩
    · rw [if_neg hs]
      refine ih _ (genInv_step hs hInv) ?_
      have := @genMeasure_step sz n s hs hInv
      omega

/-- The final state of the whole carving loop: the invariant holds and
the stack is empty. -/
theorem genLoop_final {sz n : Int} (h5 : 5 ≤ n) (rng : List Nat) :
    GenInv n (genLoop (dprops sz) n (genFuel n) (initState (dprops sz) rng)) ∧
      (genLoop (dprops sz) n (genFuel n) (initState (dprops sz) rng)).stack = [] := by
  apply genLoop_spec _ _ (genInv_init h5 rng)
  unfold genMeasure genFuel initState
  dsimp only
  simp only [List.length_singleton]
  rw [Nat.mul_assoc]
  omega

/-- Once the stack is empty, every in-bounds carve node has been
visited. -/
theorem all_nodes_visited {n : Int} {s : GenState} (hInv : GenInv n s)
    (hstack : s.stack = []) :
    ∀ p : Pos, inB n p → oddodd p → p ∈ s.visited := by
  have hclosed : ∀ p ∈ s.visited, ∀ q : Pos, adj2 p q → inB n q → q ∈ s.visited := by
    intro p hp q
    exact hInv.closure p hp (by rw [hstack]; exact List.not_mem_nil p) q
  suffices h : ∀ k : Nat, ∀ p : Pos, (p.1 + p.2).toNat = k → inB n p → oddodd p →
      p ∈ s.visited by
    intro p hb ho
    exact h _ p rfl hb ho
  intro k
  induction k using Nat.strong_induction_on with
  | _ k ih =>
    intro p hk hb ho
    have hb' := hb
    unfold inB at hb'
    have ho' := ho
    unfold oddodd at ho'
    by_cases h1 : p.1 = 1
    · by_cases h2 : p.2 = 1
      · have hp11 : p = (1, 1) := by
          obtain ⟨x, y⟩ := p
          dsimp only at h1 h2
          rw [h1, h2]
        rw [hp11]
        exact hInv.vis_one
      · have hq : inB n (p.1, p.2 - 2) ∧ oddodd (p.1, p.2 - 2) := by
          unfold inB oddodd
          dsimp only
          omega
        have hlt : ((p.1 + (p.2 - 2)).toNat) < k := by omega
        have hqvis : (p.1, p.2 - 2) ∈ s.visited := ih _ hlt _ rfl hq.1 hq.2
        have hadj : adj2 (p.1, p.2 - 2) p := by
          unfold adj2
          dsimp only
          left
          exact ⟨rfl, Or.inl (by omega)⟩
        exact hclosed _ hqvis p hadj hb
    · have hq : inB n (p.1 - 2, p.2) ∧ oddodd (p.1 - 2, p.2) := by
        unfold inB oddodd
        dsimp only
        omega
      have hlt : (((p.1 - 2) + p.2).toNat) < k := by omega
      have hqvis : (p.1 - 2, p.2) ∈ s.visited := ih _ hlt _ rfl hq.1 hq.2
      have hadj : adj2 (p.1 - 2, p.2) p := by
        unfold adj2
        dsimp only
        right
        exact ⟨rfl, Or.inl (by omega)⟩
      exact hclosed _ hqvis p hadj hb

/-- For an odd size already in [5, 99] normalization is the identity. -/
theorem norm_id {size : Int} (h5 : 5 ≤ size) (h99 : size ≤ 99)
    (hodd : size % 2 = 1) : normalizeSize size = size := by
  unfold normalizeSize orOne
  rw [if_neg (by omega), min_eq_left h99, max_eq_right h5]

theorem generate_maze_size (props : MazeProperties) (rng : List Nat) :
    (generate_maze props rng).size = normalizeSize props.size := rfl

theorem generate_maze_maze (props : MazeProperties) (rng : List Nat) :
    (generate_maze props rng).maze = placeExit props (normalizeSize props.size)
      ((genLoop props (normalizeSize props.size)
        (genFuel (normalizeSize props.size)) (initState props rng)).maze) := rfl

theorem generate_maze_carves (props : MazeProperties) (rng : List Nat) :
    (generate_maze props rng).carves
      = (genLoop props (normalizeSize props.size)
          (genFuel (normalizeSize props.size)) (initState props rng)).edges.length := rfl

theorem dprops_size (size : Int) : (dprops size).size = size := rfl

/-- The exit scan starts at column `n - 2`. -/
theorem exitCols_head {n : Int} (h5 : 5 ≤ n) :
    ∃ tail, exitCols n = (n - 2) :: tail := by
  unfold exitCols
  obtain ⟨k, hk⟩ : ∃ k, n.toNat - 2 = k + 1 := ⟨n.toNat - 3, by omega⟩
  rw [hk, List.range_succ_eq_map, List.map_cons]
  refine ⟨List.map (fun i => n - 2 - Int.ofNat i) (List.map Nat.succ (List.range k)), ?_⟩
  congr 1
  simp

/-- When the cell scanned first is already a path, the exit lands at
`(n - 1, n - 2)`. -/
theorem placeExit_final {sz n : Int} {M : Pos → Char} (h5 : 5 ≤ n)
    (hpath : M (n - 2, n - 2) = ' ') :
    placeExit (dprops sz) n M = setCell M (n - 1, n - 2) 'E' := by
  unfold placeExit
  obtain ⟨tail, htail⟩ := exitCols_head h5
  rw [htail, List.find?_cons_of_pos _ (by rw [hpath]; rfl)]
  rfl

/-- After the loop every visited node is marked as path. -/
theorem final_marked {n : Int} {s : GenState} (hInv : GenInv n s)
    (hstk : s.stack = []) : ∀ p ∈ s.visited, s.maze p = ' ' := by
  intro p hp
  rcases hInv.vis_marked p hp with h | h
  · exact h
  · rw [hstk] at h
    cases h

/-- The exit write at `(n - 1, n - 2)` does not touch any path cell. -/
theorem final_keep {n : Int} {s : GenState} (hInv : GenInv n s)
    (hodd : n % 2 = 1) :
    ∀ p : Pos, s.maze p = ' ' → setCell s.maze (n - 1, n - 2) 'E' p = ' ' := by
  intro p hp
  have hpe : p ≠ (n - 1, n - 2) := by
    intro h
    subst h
    rcases hInv.path_src _ hp with hv | hm
    · have ho := (hInv.vis_bounds _ hv).2
      unfold oddodd at ho
      dsimp only at ho
      omega
    · unfold mids at hm
      obtain ⟨e, he, heq⟩ := List.mem_map.mp hm
      obtain ⟨h1, h2, h3, h4, hadj⟩ := hInv.edges_ok e he
      have hrow := mid2_row_lt (hInv.vis_bounds _ h1).1 (hInv.vis_bounds _ h2).1
        h3 hodd hadj
      rw [heq] at hrow
      exact hrow rfl
  rw [setCell_other _ _ _ hpe]
  exact hp

/-- The first leg of a carve edge as a unit move. -/
theorem stepadj_mid_left {n : Int} {M : Pos → Char} {a b : Pos} (hadj : adj2 a b)
    (hinB : inB n (mid2 a b)) (hpath : M (mid2 a b) = ' ') :
    StepAdj n M '#' a (mid2 a b) := by
  refine ⟨hinB, by rw [hpath]; decide, ?_⟩
  rcases adj2_cases hadj with ⟨-, hm⟩ | ⟨-, hm⟩ | ⟨-, hm⟩ | ⟨-, hm⟩ <;>
    rw [hm] <;> dsimp only <;> ring

/-- The second leg of a carve edge as a unit move. -/
theorem stepadj_mid_right {n : Int} {M : Pos → Char} {a b : Pos} (hadj : adj2 a b)
    (hinB : inB n b) (hpath : M b = ' ') :
    StepAdj n M '#' (mid2 a b) b := by
  refine ⟨hinB, by rw [hpath]; decide, ?_⟩
  rcases adj2_cases hadj with ⟨hb', hm⟩ | ⟨hb', hm⟩ | ⟨hb', hm⟩ | ⟨hb', hm⟩ <;>
    rw [hm, hb'] <;> dsimp only <;> ring

/-- Positions of the cell list are exactly the in-bounds positions. -/
theorem mem_gridCells {n : Int} {p : Pos} : p ∈ gridCells n ↔ inB n p := by
  unfold gridCells inB
  simp only [List.mem_flatMap, List.mem_map, List.mem_range]
  constructor
  · rintro ⟨i, hi, j, hj, rfl⟩
    refine ⟨by omega, by omega, by omega, by omega⟩
  · intro h
    refine ⟨p.1.toNat, by omega, p.2.toNat, by omega, ?_⟩
    obtain ⟨x, y⟩ := p
    rw [Prod.ext_iff]
    dsimp only
    dsimp only at h
    constructor <;> omega

/-- The cell list has no duplicates. -/
theorem gridCells_nodup (n : Int) : (gridCells n).Nodup := by
  unfold gridCells
  rw [List.nodup_flatMap]
  constructor
  · intro i hi
    refine (List.nodup_range n.toNat).map ?_
    intro a b h
    simp only [Prod.mk.injEq] at h
    have h2 := h.2
    omega
  · refine (List.nodup_range n.toNat).imp ?_
    intro a b hab
    intro x hxa hxb
    obtain ⟨j, hj, rfl⟩ := List.mem_map.mp hxa
    obtain ⟨k, hk, hkeq⟩ := List.mem_map.mp hxb
    simp only [Prod.mk.injEq] at hkeq
    have h1 := hkeq.1
    exact hab (by omega)

/-- A boolean test satisfied by exactly one member of a nodup list is
counted once. -/
theorem countP_eq_one {l : List Pos} (hnd : l.Nodup) (x : Pos) (hx : x ∈ l)
    (f : Pos → Bool) (hiff : ∀ p ∈ l, (f p = true ↔ p = x)) :
    l.countP f = 1 := by
  rw [List.countP_eq_length_filter]
  have hfx : f x = true := (hiff x hx).mpr rfl
  have hmemf : x ∈ l.filter f := List.mem_filter.mpr ⟨hx, hfx⟩
  have hall : ∀ p ∈ l.filter f, p = x := fun p hp =>
    (hiff p (List.mem_filter.mp hp).1).mp (List.mem_filter.mp hp).2
  have hnd2 : (l.filter f).Nodup := hnd.filter f
  cases hf : l.filter f with
  | nil =>
    rw [hf] at hmemf
    cases hmemf
  | cons a t =>
    rw [hf] at hall hnd2
    have ha : a = x := hall a (List.mem_cons_self _ _)
    cases t with
    | nil => rfl
    | cons b t2 =>
      have hb : b = x := hall b (List.mem_cons_of_mem _ (List.mem_cons_self _ _))
      rw [List.nodup_cons] at hnd2
      exact absurd (by rw [ha, hb]; exact List.mem_cons_self _ _) hnd2.1

/-- Counting by a test equals the length of any nodup enumeration of the
satisfying members. -/
theorem length_eq_countP {l₁ l₂ : List Pos} (h1 : l₁.Nodup) (h2 : l₂.Nodup)
    (f : Pos → Bool) (hiff : ∀ p : Pos, p ∈ l₁ ↔ (p ∈ l₂ ∧ f p = true)) :
    l₁.length = l₂.countP f := by
  classical
  rw [List.countP_eq_length_filter,
    ← List.toFinset_card_of_nodup h1, ← List.toFinset_card_of_nodup (h2.filter f)]
  congr 1
  ext p
  simp only [List.mem_toFinset, List.mem_filter]
  exact hiff p

/-- The final-state bundle of the generator at an odd in-range size: the
loop ends with the invariant and an empty stack, the size is unchanged,
and the grid is the loop's maze with the exit written at
`(size - 1, size - 2)`. -/
theorem generate_final (size : Int) (rng : List Nat) (h5 : 5 ≤ size)
    (h99 : size ≤ 99) (hodd : size % 2 = 1) :
    ∃ F : GenState, GenInv size F ∧ F.stack = [] ∧
      (generate_maze (dprops size) rng).size = size ∧
      (generate_maze (dprops size) rng).maze
        = setCell F.maze (size - 1, size - 2) 'E' ∧
      (generate_maze (dprops size) rng).carves = F.edges.length := by
  have hnorm : normalizeSize size = size := norm_id h5 h99 hodd
  obtain ⟨hInv, hstk⟩ := @genLoop_final size size h5 rng
  refine ⟨genLoop (dprops size) size (genFuel size) (initState (dprops size) rng),
    hInv, hstk, ?_, ?_, ?_⟩
  · rw [generate_maze_size, dprops_size, hnorm]
  · rw [generate_maze_maze, dprops_size, hnorm]
    have hnode : (genLoop (dprops size) size (genFuel size)
        (initState (dprops size) rng)).maze (size - 2, size - 2) = ' ' := by
      apply final_marked hInv hstk
      apply all_nodes_visited hInv hstk
      · unfold inB
        refine ⟨by omega, by omega, by omega, by omega⟩
      · unfold oddodd
        exact ⟨by omega, by omega⟩
    exact placeExit_final h5 hnode
  · rw [generate_maze_carves, dprops_size, hnorm]

/-- C1: for every odd size in [5, 99] and every rng sequence,
`generate_maze` returns a size × size grid holding exactly one Start
cell and exactly one Exit cell, the Exit lying on the outer border, and
every Path cell is reachable from the Start cell at `(0, 1)` by
4-directional moves through non-wall cells. -/
theorem C1_generate_valid (size : Int) (rng : List Nat) (h5 : 5 ≤ size)
    (h99 : size ≤ 99) (hodd : size % 2 = 1) :
    (generate_maze (dprops size) rng).size = size ∧
      countCell (generate_maze (dprops size) rng) 'S' = 1 ∧
      countCell (generate_maze (dprops size) rng) 'E' = 1 ∧
      (∀ p : Pos, inB size p → (generate_maze (dprops size) rng).maze p = 'E' →
        onBorder size p) ∧
      (∀ p : Pos, inB size p → (generate_maze (dprops size) rng).maze p = ' ' →
        Reach size (generate_maze (dprops size) rng).maze '#' (0, 1) p) := by
  obtain ⟨F, hInv, hstk, hsize, hmaze, hcarves⟩ :=
    generate_final size rng h5 h99 hodd
  have hmark := final_marked hInv hstk
  have hkeep := final_keep hInv hodd
  have hexit_ne01 : ((0 : Int), (1 : Int)) ≠ ((size - 1 : Int), (size - 2 : Int)) := by
    intro h
    rw [Prod.ext_iff] at h
    dsimp only at h
    omega
  have hM'S : ∀ p : Pos,
      setCell F.maze (size - 1, size - 2) 'E' p = 'S' ↔ p = (0, 1) := by
    intro p
    constructor
    · intro hp
      by_cases hpe : p = (size - 1, size - 2)
      · rw [hpe, setCell_same] at hp
        exact absurd hp (by decide)
      · rw [setCell_other _ _ _ hpe] at hp
        by_contra hne
        rcases hInv.maze_vals p hne with h | h <;> rw [h] at hp <;>
          exact absurd hp (by decide)
    · rintro rfl
      rw [setCell_other _ _ _ hexit_ne01]
      exact hInv.start_cell
  have hM'E : ∀ p : Pos,
      setCell F.maze (size - 1, size - 2) 'E' p = 'E' ↔
        p = (size - 1, size - 2) := by
    intro p
    constructor
    · intro hp
      by_contra hpe
      rw [setCell_other _ _ _ hpe] at hp
      by_cases hp01 : p = (0, 1)
      · rw [hp01, hInv.start_cell] at hp
        exact absurd hp (by decide)
      · rcases hInv.maze_vals p hp01 with h | h <;> rw [h] at hp <;>
          exact absurd hp (by decide)
    · rintro rfl
      exact setCell_same _ _ _
  refine ⟨hsize, ?_, ?_, ?_, ?_⟩
  · unfold countCell
    rw [hsize, hmaze]
    refine countP_eq_one (gridCells_nodup size) (0, 1)
      (mem_gridCells.mpr (by unfold inB; refine ⟨by omega, by omega, by omega, by omega⟩)) _ ?_
    intro p hp
    rw [beq_iff_eq]
    exact hM'S p
  · unfold countCell
    rw [hsize, hmaze]
    refine countP_eq_one (gridCells_nodup size) (size - 1, size - 2)
      (mem_gridCells.mpr (by unfold inB; refine ⟨by omega, by omega, by omega, by omega⟩)) _ ?_
    intro p hp
    rw [beq_iff_eq]
    exact hM'E p
  · intro p hpB hpE
    rw [hmaze] at hpE
    have hpeq := (hM'E p).mp hpE
    unfold onBorder
    rw [hpeq]
    dsimp only
    omega
  · rw [hmaze]
    intro p hpB hp0
    have hstart_step :
        Reach size (setCell F.maze (size - 1, size - 2) 'E') '#' (0, 1) (1, 1) := by
      refine Relation.ReflTransGen.single ⟨?_, ?_, ?_⟩
      · unfold inB
        refine ⟨by omega, by omega, by omega, by omega⟩
      · rw [hkeep _ (hmark _ hInv.vis_one)]
        decide
      · decide
    have hreach_nodes : ∀ v ∈ F.visited,
        Reach size (setCell F.maze (size - 1, size - 2) 'E') '#' (1, 1) v := by
      intro v hv
      have h := hInv.reach_edges v hv
      clear hv
      induction h with
      | refl => exact Relation.ReflTransGen.refl
      | @tail b c2 h1 h2 ih =>
        obtain ⟨hb1, hb2, hb3, hb4, hadj⟩ := hInv.edges_ok (b, c2) h2
        have hmid_path :
            setCell F.maze (size - 1, size - 2) 'E' (mid2 b c2) = ' ' :=
          hkeep _ (hInv.mids_marked (mid2 b c2)
            (by unfold mids; exact List.mem_map.mpr ⟨(b, c2), h2, rfl⟩))
        have hc2_path :
            setCell F.maze (size - 1, size - 2) 'E' c2 = ' ' :=
          hkeep _ (hmark _ hb2)
        have hmidB : inB size (mid2 b c2) :=
          mid2_inB (hInv.vis_bounds _ hb1).1 (hInv.vis_bounds _ hb2).1 hadj
        exact ih.trans
          (Relation.ReflTransGen.head (stepadj_mid_left hadj hmidB hmid_path)
            (Relation.ReflTransGen.single
              (stepadj_mid_right hadj (hInv.vis_bounds _ hb2).1 hc2_path)))
    have hpe : p ≠ (size - 1, size - 2) := by
      intro h
      rw [h, setCell_same] at hp0
      exact absurd hp0 (by decide)
    have hp1 : F.maze p = ' ' := by
      rw [setCell_other _ _ _ hpe] at hp0
      exact hp0
    rcases hInv.path_src p hp1 with hv | hm
    · exact hstart_step.trans (hreach_nodes p hv)
    · unfold mids at hm
      obtain ⟨e, he, heq⟩ := List.mem_map.mp hm
      obtain ⟨hb1, hb2, hb3, hb4, hadj⟩ := hInv.edges_ok e he
      have hreach_a := hstart_step.trans (hreach_nodes e.1 hb1)
      refine Relation.ReflTransGen.tail hreach_a ?_
      have hmidB : inB size (mid2 e.1 e.2) :=
        mid2_inB (hInv.vis_bounds _ hb1).1 (hInv.vis_bounds _ hb2).1 hadj
      have hmid_path :
          setCell F.maze (size - 1, size - 2) 'E' (mid2 e.1 e.2) = ' ' := by
        rw [show mid2 e.1 e.2 = p from heq]
        exact hkeep p hp1
      have hstep := stepadj_mid_left hadj hmidB hmid_path
      rw [show mid2 e.1 e.2 = p from heq] at hstep
      exact hstep

/-- C1 witness: the property instantiated at size 5 with the empty rng
sequence. -/
theorem C1_generate_valid_witness :
    ((5 : Int) ≤ 5 ∧ (5 : Int) ≤ 99 ∧ (5 : Int) % 2 = 1) ∧
      ((generate_maze (dprops 5) []).size = 5 ∧
        countCell (generate_maze (dprops 5) []) 'S' = 1 ∧
        countCell (generate_maze (dprops 5) []) 'E' = 1 ∧
        (∀ p : Pos, inB 5 p → (generate_maze (dprops 5) []).maze p = 'E' →
          onBorder 5 p) ∧
        (∀ p : Pos, inB 5 p → (generate_maze (dprops 5) []).maze p = ' ' →
          Reach 5 (generate_maze (dprops 5) []).maze '#' (0, 1) p)) :=
  ⟨⟨by decide, by decide, by decide⟩,
    C1_generate_valid 5 [] (by decide) (by decide) (by decide)⟩

/-- C2 (amended): the carved structure is a spanning tree of the carve
nodes. The number of Path cells in the final grid is `2·carves + 1`
(each successful carve step opens exactly two cells: the carved wall and
the newly visited node; the initial node contributes one), and the number
of carve nodes — the odd-odd grid cells, all of which end up visited — is
`carves + 1`, so the carve graph is connected (claim C1's reachability)
with one more vertex than edges: a tree, with no cycle ever introduced. -/
theorem C2_spanning_tree (size : Int) (rng : List Nat) (h5 : 5 ≤ size)
    (h99 : size ≤ 99) (hodd : size % 2 = 1) :
    countCell (generate_maze (dprops size) rng) ' '
        = 2 * (generate_maze (dprops size) rng).carves + 1 ∧
      (gridCells size).countP (fun p => decide (oddodd p))
        = (generate_maze (dprops size) rng).carves + 1 := by
  obtain ⟨F, hInv, hstk, hsize, hmaze, hcarves⟩ :=
    generate_final size rng h5 h99 hodd
  have hmark := final_marked hInv hstk
  have hkeep := final_keep hInv hodd
  have hall := all_nodes_visited hInv hstk
  have hmid_facts : ∀ q ∈ mids F.edges, inB size q ∧ ¬ oddodd q := by
    intro q hq
    unfold mids at hq
    obtain ⟨e, he, heq⟩ := List.mem_map.mp hq
    obtain ⟨h1, h2, h3, h4, hadj⟩ := hInv.edges_ok e he
    have hq1 : mid2 e.1 e.2 = q := heq
    rw [← hq1]
    exact ⟨mid2_inB (hInv.vis_bounds _ h1).1 (hInv.vis_bounds _ h2).1 hadj,
      mid2_not_oddodd h3 hadj⟩
  have hiff : ∀ p : Pos, setCell F.maze (size - 1, size - 2) 'E' p = ' ' ↔
      (p ∈ F.visited ∨ p ∈ mids F.edges) := by
    intro p
    constructor
    · intro hp
      have hpe : p ≠ (size - 1, size - 2) := by
        intro h
        rw [h, setCell_same] at hp
        exact absurd hp (by decide)
      rw [setCell_other _ _ _ hpe] at hp
      exact hInv.path_src p hp
    · intro h
      rcases h with h | h
      · exact hkeep _ (hmark _ h)
      · exact hkeep _ (hInv.mids_marked _ h)
  have hdisj : (F.visited ++ mids F.edges).Nodup := by
    rw [List.nodup_append]
    refine ⟨hInv.vis_nodup, hInv.mids_nodup, ?_⟩
    intro p hp hq
    exact (hmid_facts p hq).2 (hInv.vis_bounds p hp).2
  constructor
  · unfold countCell
    rw [hsize, hmaze, hcarves]
    have hiff2 : ∀ p : Pos, p ∈ F.visited ++ mids F.edges ↔
        (p ∈ gridCells size ∧
          (setCell F.maze (size - 1, size - 2) 'E' p == ' ') = true) := by
      intro p
      rw [List.mem_append, beq_iff_eq, mem_gridCells]
      constructor
      · intro h
        refine ⟨?_, (hiff p).mpr h⟩
        rcases h with h | h
        · exact (hInv.vis_bounds p h).1
        · exact (hmid_facts p h).1
      · intro h
        exact (hiff p).mp h.2
    have hlen := length_eq_countP hdisj (gridCells_nodup size)
      (fun p => setCell F.maze (size - 1, size - 2) 'E' p == ' ') hiff2
    rw [← hlen, List.length_append, hInv.count_eq]
    have hmlen : (mids F.edges).length = F.edges.length := by
      unfold mids
      exact List.length_map _ _
    rw [hmlen]
    ring
  · rw [hcarves, ← hInv.count_eq]
    refine (length_eq_countP hInv.vis_nodup (gridCells_nodup size)
      (fun p => decide (oddodd p)) ?_).symm
    intro p
    rw [mem_gridCells, decide_eq_true_eq]
    constructor
    · intro h
      exact ⟨(hInv.vis_bounds p h).1, (hInv.vis_bounds p h).2⟩
    · intro h
      exact hall p h.1 h.2

/-- C2 witness: the amended count property instantiated at size 5 with
the empty rng sequence (7 path cells, 3 carves, 4 nodes). -/
theorem C2_spanning_tree_witness :
    ((5 : Int) ≤ 5 ∧ (5 : Int) ≤ 99 ∧ (5 : Int) % 2 = 1) ∧
      (countCell (generate_maze (dprops 5) []) ' '
          = 2 * (generate_maze (dprops 5) []).carves + 1 ∧
        (gridCells 5).countP (fun p => decide (oddodd p))
          = (generate_maze (dprops 5) []).carves + 1) :=
  ⟨⟨by decide, by decide, by decide⟩,
    C2_spanning_tree 5 [] (by decide) (by decide) (by decide)⟩

end MazeProj
